import Mathlib

/-!
Verification development for the feedback ingestion-cache-enrichment pipeline.

The definitions below are a shallow embedding of the TypeScript sources:
* `server/src/routes/feedback.ts` (date-range chunking, LRU query cache,
  chunked upstream fetch, dedup-by-id),
* `server/src/services/geminiService.ts` (content-addressed analysis cache,
  batched AI analysis),
* `server/src/utils/transformer.ts` (normalizer and AI-enrichment transform).

Modelling conventions:
* Calendar dates are modelled as epoch-day numbers (`Nat`); the ISO string
  `YYYY-MM-DD` used in the source is in order-preserving bijection with them,
  and the source's `Date` arithmetic (`setDate(getDate() + k)`) adds `k` days.
* `Date.now()` timestamps are an explicit `now : Nat` argument threaded through
  every cache operation; clocks are assumed monotone exactly where the source
  assumes it.
* JavaScript `Map` is an insertion-ordered association list: `set` on an
  existing key updates the value in place (keeping the original position),
  `set` on a fresh key appends, and iteration (`keys()`, `values()`) follows
  that order.  Those semantics are captured by `mset` / `mfind` / `mdel`.
* Asynchronous concurrency (`Promise.all` over a window of chunks) collapses,
  for value-level semantics, to processing the chunks sequentially in input
  order, which is exactly the order in which the source merges the results.
* The external AI provider is an oracle `Provider`: one call per chunk that
  either fails (request error, empty or malformed response) giving `none`, or
  returns a list of structured results, possibly shorter than the chunk.
-/

/-! ## Insertion-ordered association lists (JavaScript `Map` semantics) -/

/-- Lookup of a key in an insertion-ordered association list (`Map.get`). -/
def mfind {α β : Type} [DecidableEq α] (k : α) : List (α × β) → Option β
  | [] => none
  | (k', v) :: rest => if k' = k then some v else mfind k rest

/-- `Map.set`: update in place if the key is present, else append at the end. -/
def mset {α β : Type} [DecidableEq α] : List (α × β) → α → β → List (α × β)
  | [], k, v => [(k, v)]
  | (k', v') :: rest, k, v =>
      if k' = k then (k', v) :: rest else (k', v') :: mset rest k v

/-- `Map.delete`: remove the (unique) entry with the given key. -/
def mdel {α β : Type} [DecidableEq α] (k : α) : List (α × β) → List (α × β)
  | [] => []
  | (k', v') :: rest => if k' = k then rest else (k', v') :: mdel k rest

@[simp] theorem mfind_nil {α β : Type} [DecidableEq α] (k : α) :
    mfind (β := β) k [] = none := rfl

@[simp] theorem mfind_cons {α β : Type} [DecidableEq α] (k k' : α) (v : β)
    (rest : List (α × β)) :
    mfind k ((k', v) :: rest) = if k' = k then some v else mfind k rest := rfl

theorem mfind_mset {α β : Type} [DecidableEq α] (m : List (α × β)) (k a : α) (v : β) :
    mfind a (mset m k v) = if k = a then some v else mfind a m := by
  induction m with
  | nil => simp [mset]
  | cons kv rest ih =>
      obtain ⟨k', v'⟩ := kv
      by_cases hk : k' = k
      · subst hk
        by_cases ha : k' = a <;> simp [mset, ha]
      · by_cases ha : k' = a
        · subst ha
          have : ¬ k = k' := fun h => hk h.symm
          simp [mset, hk, this]
        · simp [mset, hk, ha, ih]

@[simp] theorem mfind_mset_self {α β : Type} [DecidableEq α]
    (m : List (α × β)) (k : α) (v : β) :
    mfind k (mset m k v) = some v := by
  simp [mfind_mset]

theorem mfind_mset_ne {α β : Type} [DecidableEq α]
    (m : List (α × β)) (k a : α) (v : β) (h : k ≠ a) :
    mfind a (mset m k v) = mfind a m := by
  simp [mfind_mset, h]

/-- Keys of an association list, in insertion order. -/
def mkeys {α β : Type} (m : List (α × β)) : List α := m.map (·.1)

theorem mem_mkeys_of_mfind {α β : Type} [DecidableEq α]
    {m : List (α × β)} {k : α} {v : β} (h : mfind k m = some v) : k ∈ mkeys m := by
  induction m with
  | nil => simp [mfind] at h
  | cons kv rest ih =>
      obtain ⟨k', v'⟩ := kv
      by_cases hk : k' = k
      · subst hk; simp [mkeys]
      · simp only [mfind_cons, hk, if_false] at h
        exact List.mem_cons_of_mem _ (ih h)

theorem mfind_eq_none_of_not_mem_mkeys {α β : Type} [DecidableEq α]
    {m : List (α × β)} {k : α} (h : k ∉ mkeys m) : mfind k m = none := by
  cases hf : mfind k m with
  | none => rfl
  | some v => exact absurd (mem_mkeys_of_mfind hf) h

/-! ## Data model (`types.ts`) -/

/-- Sentiment enum from `types.ts`. -/
inductive Sentiment : Type
  | positive
  | neutral
  | negative
  | pending
deriving DecidableEq, Repr

/-- Category enum from `types.ts`. -/
inductive Category : Type
  | bug
  | feature
  | uxui
  | performance
  | other
  | unclassified
deriving DecidableEq, Repr

/-- Status union type `'New' | 'In Progress' | 'Resolved'` from `types.ts`. -/
inductive Status : Type
  | new
  | inProgress
  | resolved
deriving DecidableEq, Repr

/-- Raw upstream item (`FeishuFeedbackItem`).  String fields that the source
reads with a JavaScript falsy check (`a || b`) are modelled as `Option String`
so that both "absent" and "empty string" are representable. -/
structure FeishuFeedbackItem : Type where
  id : Nat
  user_id : Nat
  nickName : Option String
  avatar : Option String
  createTime : String
  content : Option String
  momentsText : Option String
  type : Option String
  status : Nat
  imageUrl : Option String
  userType : Option String
  contentType : Option Nat
deriving DecidableEq, Repr

/-- Canonical feedback record (`FeedbackItem` in `types.ts`). -/
structure FeedbackItem : Type where
  id : String
  userId : String
  userName : String
  userAvatar : String
  date : String
  content : String
  rating : Nat
  category : Category
  sentiment : Sentiment
  tags : List String
  aiSummary : Option String
  status : Status
  assignedTo : Option String
  type : Option String
  imageUrl : Option String
  momentsText : Option String
  userType : Option String
  contentType : Option Nat
deriving DecidableEq, Repr

/-- AI analysis result (`AnalysisResult` in `geminiService.ts`). -/
structure AnalysisResult : Type where
  sentiment : Sentiment
  category : Category
  tags : List String
  summary : String
deriving DecidableEq, Repr

/-- One item of a batch-analysis request (`BatchAnalysisItem`). -/
structure BatchAnalysisItem : Type where
  id : String
  content : String
deriving DecidableEq, Repr

/-! ## Date-range chunking (`splitDateRange`, feedback.ts lines 572-599)

Dates are epoch-day numbers.  The source parses `from`/`to` into `Date`s and
walks `currentStart` forward; each chunk ends at
`currentStart + maxDaysPerChunk - 1`, clamped to `to`, and the next chunk
starts the day after the previous end.  The loop adds at least one day per
iteration whenever `maxDaysPerChunk ≥ 1`, so `to + 1 - from` iterations
suffice; the fuel parameter makes that termination explicit.  (For
`maxDaysPerChunk = 0` the source loops forever; that input is outside every
claim's domain and the fuel model simply stops.) -/

def splitGo : Nat → Nat → Nat → Nat → List (Nat × Nat)
  | 0, _, _, _ => []
  | fuel + 1, cur, last, n =>
      if cur > last then []
      else
        let e := min (cur + n - 1) last
        (cur, e) :: splitGo fuel (e + 1) last n

/-- `splitDateRange(from, to, maxDaysPerChunk)`: split the inclusive day
interval `[f, t]` into consecutive chunks of at most `n` days. -/
def splitDateRange (f t n : Nat) : List (Nat × Nat) :=
  splitGo (t + 1 - f) f t n

/-- Concatenation of the inclusive day intervals described by a chunk list. -/
def expandChunks : List (Nat × Nat) → List Nat
  | [] => []
  | (a, b) :: rest => List.range' a (b + 1 - a) ++ expandChunks rest

theorem splitGo_spec (n : Nat) (hn : 1 ≤ n) :
    ∀ fuel cur last, last + 1 - cur ≤ fuel →
      expandChunks (splitGo fuel cur last n) = List.range' cur (last + 1 - cur) ∧
      ∀ p ∈ splitGo fuel cur last n,
        p.1 ≤ p.2 ∧ p.2 ≤ last ∧ p.2 + 1 - p.1 ≤ n := by
  intro fuel
  induction fuel with
  | zero =>
      intro cur last hfuel
      have h0 : last + 1 - cur = 0 := by omega
      refine ⟨by simp [splitGo, expandChunks, h0], ?_⟩
      intro p hp; simp [splitGo] at hp
  | succ fuel ih =>
      intro cur last hfuel
      by_cases hgt : cur > last
      · have h0 : last + 1 - cur = 0 := by omega
        refine ⟨by simp [splitGo, expandChunks, hgt, h0], ?_⟩
        intro p hp; simp [splitGo, hgt] at hp
      · have hle : cur ≤ last := by omega
        have he1 : cur ≤ min (cur + n - 1) last := by omega
        have he2 : min (cur + n - 1) last ≤ last := by omega
        have hrec : last + 1 - (min (cur + n - 1) last + 1) ≤ fuel := by omega
        obtain ⟨ihexp, ihmem⟩ := ih (min (cur + n - 1) last + 1) last hrec
        constructor
        · simp only [splitGo, hgt, if_false, expandChunks, ihexp]
          have key := List.range'_append cur (min (cur + n - 1) last + 1 - cur)
            (last + 1 - (min (cur + n - 1) last + 1)) 1
          rw [show cur + 1 * (min (cur + n - 1) last + 1 - cur) =
                min (cur + n - 1) last + 1 by omega] at key
          rw [key]
          congr 1
          omega
        · intro p hp
          simp only [splitGo, hgt, if_false, List.mem_cons] at hp
          rcases hp with hp | hp
          · subst hp
            refine ⟨he1, he2, by omega⟩
          · exact ihmem p hp

/-- Claim C1: for every pair of days `f ≤ t` and every `maxDaysPerChunk n ≥ 1`,
`splitDateRange f t n` is an ordered sequence of contiguous, non-overlapping
sub-intervals whose concatenation is exactly the inclusive interval `[f, t]`
(expressed as `expandChunks _ = List.range' f (t + 1 - f)`), in which every
chunk is well-formed, spans at most `n` days, and never exceeds `t`; and when
`f > t` the result is the empty sequence. -/
theorem splitDateRange_correct (f t n : Nat) (hn : 1 ≤ n) :
    (expandChunks (splitDateRange f t n) = List.range' f (t + 1 - f) ∧
      ∀ p ∈ splitDateRange f t n, p.1 ≤ p.2 ∧ p.2 ≤ t ∧ p.2 + 1 - p.1 ≤ n) ∧
    (t < f → splitDateRange f t n = []) := by
  refine ⟨?_, ?_⟩
  · exact splitGo_spec n hn (t + 1 - f) f t (le_refl _)
  · intro hlt
    have : t + 1 - f = 0 := by omega
    simp [splitDateRange, this, splitGo]

/-- Witness for C1 at the spec's own example: `from = day 0`, `to = day 6`
(a 7-day range), `n = 3` gives `[(0,2), (3,5), (6,6)]` and the correctness
properties hold there. -/
theorem splitDateRange_correct_witness :
    (1 ≤ 3 ∧
      splitDateRange 0 6 3 = [(0, 2), (3, 5), (6, 6)] ∧
      expandChunks (splitDateRange 0 6 3) = List.range' 0 7) ∧
    (∀ p ∈ splitDateRange 0 6 3, p.1 ≤ p.2 ∧ p.2 ≤ 6 ∧ p.2 + 1 - p.1 ≤ 3) := by
  refine ⟨⟨by decide, by decide, ?_⟩, ?_⟩
  · exact ((splitDateRange_correct 0 6 3 (by decide)).1).1
  · exact ((splitDateRange_correct 0 6 3 (by decide)).1).2

/-! ## More association-list lemmas -/

theorem mem_mset {α β : Type} [DecidableEq α] {m : List (α × β)} {k : α} {v : β}
    {kv : α × β} (h : kv ∈ mset m k v) : kv ∈ m ∨ kv = (k, v) := by
  induction m with
  | nil =>
      simp only [mset, List.mem_singleton] at h
      exact Or.inr h
  | cons hd rest ih =>
      obtain ⟨k', v'⟩ := hd
      by_cases hk : k' = k
      · have hm : mset ((k', v') :: rest) k v = (k', v) :: rest := by
          simp [mset, hk]
        rw [hm] at h
        rcases List.mem_cons.mp h with h1 | h1
        · right; rw [h1, hk]
        · left; exact List.mem_cons_of_mem _ h1
      · simp only [mset, hk, if_false, List.mem_cons] at h
        rcases h with h | h
        · left; simp [h]
        · rcases ih h with h' | h'
          · left; exact List.mem_cons_of_mem _ h'
          · right; exact h'

theorem mem_mdel {α β : Type} [DecidableEq α] {m : List (α × β)} {k : α}
    {kv : α × β} (h : kv ∈ mdel k m) : kv ∈ m := by
  induction m with
  | nil => simp [mdel] at h
  | cons hd rest ih =>
      obtain ⟨k', v'⟩ := hd
      by_cases hk : k' = k
      · simp only [mdel, hk, if_pos rfl] at h
        exact List.mem_cons_of_mem _ h
      · simp only [mdel, hk, if_false, List.mem_cons] at h
        rcases h with h | h
        · simp [h]
        · exact List.mem_cons_of_mem _ (ih h)

theorem mfind_mdel_ne {α β : Type} [DecidableEq α] (m : List (α × β)) {k a : α}
    (h : k ≠ a) : mfind a (mdel k m) = mfind a m := by
  induction m with
  | nil => simp [mdel]
  | cons hd rest ih =>
      obtain ⟨k', v'⟩ := hd
      by_cases hk : k' = k
      · subst hk
        have hna : ¬ k' = a := fun hh => h hh
        simp [mdel, hna]
      · by_cases ha : k' = a
        · have hak : ¬ a = k := by rw [← ha]; exact hk
          simp [mdel, hk, ha, hak]
        · simp [mdel, hk, ha, ih]

theorem length_mset_le {α β : Type} [DecidableEq α] (m : List (α × β)) (k : α) (v : β) :
    (mset m k v).length ≤ m.length + 1 := by
  induction m with
  | nil => simp [mset]
  | cons hd rest ih =>
      obtain ⟨k', v'⟩ := hd
      by_cases hk : k' = k <;> simp [mset, hk]
      omega

theorem length_mdel_mem {α β : Type} [DecidableEq α] {m : List (α × β)} {k : α}
    (h : k ∈ mkeys m) : (mdel k m).length + 1 = m.length := by
  induction m with
  | nil => simp [mkeys] at h
  | cons hd rest ih =>
      obtain ⟨k', v'⟩ := hd
      by_cases hk : k' = k
      · simp [mdel, hk]
      · simp only [mkeys, List.map_cons, List.mem_cons] at h
        rcases h with h | h
        · exact absurd h.symm hk
        · simp only [mdel, hk, if_false, List.length_cons]
          rw [← ih h]

theorem length_mset_mem {α β : Type} [DecidableEq α] {m : List (α × β)} {k : α} (v : β)
    (h : k ∈ mkeys m) : (mset m k v).length = m.length := by
  induction m with
  | nil => simp [mkeys] at h
  | cons hd rest ih =>
      obtain ⟨k', v'⟩ := hd
      by_cases hk : k' = k
      · simp [mset, hk]
      · simp only [mkeys, List.map_cons, List.mem_cons] at h
        rcases h with h | h
        · exact absurd h.symm hk
        · simp [mset, hk, ih h]

theorem not_mem_mkeys_mdel {α β : Type} [DecidableEq α] {m : List (α × β)} {k : α}
    (h : (mkeys m).Nodup) : k ∉ mkeys (mdel k m) := by
  induction m with
  | nil => simp [mdel, mkeys]
  | cons hd rest ih =>
      obtain ⟨k', v'⟩ := hd
      simp only [mkeys, List.map_cons, List.nodup_cons] at h
      by_cases hk : k' = k
      · subst hk
        simpa [mdel, mkeys] using h.1
      · simp only [mdel, hk, if_false, mkeys, List.map_cons, List.mem_cons]
        push_neg
        exact ⟨fun hh => hk hh.symm, ih h.2⟩

theorem mfind_mdel_self {α β : Type} [DecidableEq α] {m : List (α × β)} (k : α)
    (h : (mkeys m).Nodup) : mfind (β := β) k (mdel k m) = none :=
  mfind_eq_none_of_not_mem_mkeys (not_mem_mkeys_mdel h)

theorem mset_eq_append_of_not_mem {α β : Type} [DecidableEq α] {m : List (α × β)}
    {k : α} (v : β) (h : k ∉ mkeys m) : mset m k v = m ++ [(k, v)] := by
  induction m with
  | nil => simp [mset]
  | cons hd rest ih =>
      obtain ⟨k', v'⟩ := hd
      simp only [mkeys, List.map_cons, List.mem_cons] at h
      push_neg at h
      have h1 : ¬ k' = k := fun hh => h.1 hh.symm
      simp [mset, h1, ih h.2]

/-! ## QueryResultCache (`LRUCache` in feedback.ts, lines 440-514)

In-process TTL/LRU cache keyed by the `${from}-${to}` range string.  The
`aiAnalyzed` flag records whether the stored data went through AI enrichment.
-/

/-- `CacheEntry` of the query cache (feedback.ts lines 440-445). -/
structure CacheEntry : Type where
  data : List FeedbackItem
  timestamp : Nat
  accessCount : Nat
  aiAnalyzed : Bool
deriving DecidableEq, Repr

/-- The `LRUCache` class state: insertion-ordered map plus configuration. -/
structure LRUCache : Type where
  cache : List (String × CacheEntry)
  maxSize : Nat
  ttl : Nat
deriving DecidableEq, Repr

/-- `LRUCache.get(key, requireAI)` (feedback.ts lines 457-477): TTL check
first (expired entries are deleted), then the AI-requirement check, then the
hit path bumps `accessCount` and re-inserts the key at the most-recent end. -/
def LRUCache.get (c : LRUCache) (key : String) (requireAI : Bool) (now : Nat) :
    Option (List FeedbackItem) × LRUCache :=
  match mfind key c.cache with
  | none => (none, c)
  | some entry =>
      if now - entry.timestamp > c.ttl then
        (none, { c with cache := mdel key c.cache })
      else if requireAI && !entry.aiAnalyzed then
        (none, c)
      else
        let entry' : CacheEntry := { entry with accessCount := entry.accessCount + 1 }
        (some entry.data, { c with cache := mset (mdel key c.cache) key entry' })

/-- `LRUCache.set(key, data, aiAnalyzed)` (feedback.ts lines 479-494): at
capacity the first key in map order is deleted — unless `keys().next().value`
is falsy, which happens both for an empty map and for the empty-string key —
then the entry is written with `Map.set` (in place for an existing key). -/
def LRUCache.set (c : LRUCache) (key : String) (data : List FeedbackItem)
    (aiAnalyzed : Bool) (now : Nat) : LRUCache :=
  let es :=
    if c.cache.length ≥ c.maxSize then
      match c.cache with
      | [] => c.cache
      | (k0, _) :: _ => if k0 = "" then c.cache else mdel k0 c.cache
    else c.cache
  { c with cache := mset es key ⟨data, now, 1, aiAnalyzed⟩ }

/-- The module-level instance `new LRUCache(10, 5)`: 10 entries, 5-minute TTL
in milliseconds. -/
def feedbackCache : LRUCache := ⟨[], 10, 5 * 60 * 1000⟩

/-- Claim C5: after `set(k, d, aiAnalyzed := false)`, a `get(k, requireAI :=
true)` misses at every later time (whether or not the TTL has passed), while a
`get(k, requireAI := false)` within the TTL returns `d`. -/
theorem queryCache_requireAI_miss (c : LRUCache) (k : String)
    (d : List FeedbackItem) (t t' : Nat) :
    ((LRUCache.set c k d false t).get k true t').1 = none ∧
    (t' - t ≤ c.ttl → ((LRUCache.set c k d false t).get k false t').1 = some d) := by
  have hfind : mfind k (LRUCache.set c k d false t).cache =
      some ⟨d, t, 1, false⟩ := by
    simp [LRUCache.set]
  constructor
  · simp only [LRUCache.get, hfind]
    by_cases hexp : t' - t > (LRUCache.set c k d false t).ttl <;> simp [hexp]
  · intro httl
    have hexp : ¬ t' - t > (LRUCache.set c k d false t).ttl := by
      simp only [LRUCache.set]
      omega
    simp [LRUCache.get, hfind, hexp]

/-- Witness for C5 at a concrete input: an entry stored without AI in the
empty query cache is an AI-requiring miss and a plain hit. -/
theorem queryCache_requireAI_miss_witness :
    (0 - 0 ≤ feedbackCache.ttl ∧
      ((LRUCache.set feedbackCache "0-6" [] false 0).get "0-6" true 0).1 = none) ∧
    ((LRUCache.set feedbackCache "0-6" [] false 0).get "0-6" false 0).1 = some [] := by
  refine ⟨⟨by decide, ?_⟩, ?_⟩
  · exact (queryCache_requireAI_miss feedbackCache "0-6" [] 0 0).1
  · exact (queryCache_requireAI_miss feedbackCache "0-6" [] 0 0).2 (by decide)

/-! ## ContentAnalysisCache (`AnalysisCache` in geminiService.ts, lines 22-79)

Content-hash-addressed cache of AI results.  The source keys the map by
`hashContent(content)`, the base-36 rendering of a 32-bit signed rolling hash;
base-36 rendering is injective on 32-bit values, so the model keys the map by
the 32-bit value itself. -/

/-- Truncation to a 32-bit signed integer, as JavaScript bitwise operators
perform it. -/
def toInt32 (z : Int) : Int := (z + 2 ^ 31) % 2 ^ 32 - 2 ^ 31

/-- `hashContent` (geminiService.ts lines 37-46): per character
`hash = ((hash << 5) - hash) + char; hash = hash & hash`, i.e. a 31-multiplier
rolling hash over the code units, truncated to 32 signed bits at each step. -/
def hashContent (s : String) : Int :=
  s.toList.foldl (fun h c => toInt32 (toInt32 (h * 32) - h + c.toNat)) 0

/-- Entry of the analysis cache (`CacheEntry` in geminiService.ts lines 22-25). -/
structure AnalysisCacheEntry : Type where
  result : AnalysisResult
  timestamp : Nat
deriving DecidableEq, Repr

/-- The `AnalysisCache` class state. -/
structure AnalysisCache : Type where
  cache : List (Int × AnalysisCacheEntry)
  maxSize : Nat
  ttl : Nat
deriving DecidableEq, Repr

/-- `AnalysisCache.get(content)` (geminiService.ts lines 48-57): hash the
content, look it up, treat an entry older than the TTL as a miss and delete
it. -/
def AnalysisCache.get (c : AnalysisCache) (content : String) (now : Nat) :
    Option AnalysisResult × AnalysisCache :=
  let key := hashContent content
  match mfind key c.cache with
  | none => (none, c)
  | some entry =>
      if now - entry.timestamp > c.ttl then
        (none, { c with cache := mdel key c.cache })
      else
        (some entry.result, c)

/-- `AnalysisCache.set(content, result)` (geminiService.ts lines 59-67): at
capacity drop the 100 oldest-inserted entries, then write the hashed key. -/
def AnalysisCache.set (c : AnalysisCache) (content : String)
    (result : AnalysisResult) (now : Nat) : AnalysisCache :=
  let es := if c.cache.length ≥ c.maxSize then c.cache.drop 100 else c.cache
  { c with cache := mset es (hashContent content) ⟨result, now⟩ }

/-- The module-level instance `new AnalysisCache()`: 5000 entries, 24-hour TTL
in milliseconds. -/
def analysisCache : AnalysisCache := ⟨[], 5000, 24 * 60 * 60 * 1000⟩

/-- Claim C7: `set(c, r)` followed immediately by `get(c)` returns `r` (for
any cache state and any time); and once the elapsed time since an entry's
insertion exceeds the TTL, `get` returns a miss and evicts the entry. -/
theorem analysisCache_set_get_and_expiry :
    (∀ (c : AnalysisCache) (content : String) (r : AnalysisResult) (t : Nat),
      ((AnalysisCache.set c content r t).get content t).1 = some r) ∧
    (∀ (c : AnalysisCache) (content : String) (e : AnalysisCacheEntry) (t' : Nat),
      (mkeys c.cache).Nodup →
      mfind (hashContent content) c.cache = some e →
      t' - e.timestamp > c.ttl →
      (c.get content t').1 = none ∧
      mfind (hashContent content) ((c.get content t').2).cache = none) := by
  constructor
  · intro c content r t
    have hfind : mfind (hashContent content) (AnalysisCache.set c content r t).cache =
        some ⟨r, t⟩ := by
      simp [AnalysisCache.set]
    simp [AnalysisCache.get, hfind]
  · intro c content e t' hnd hfind hexp
    constructor
    · simp [AnalysisCache.get, hfind, hexp]
    · simp only [AnalysisCache.get, hfind, if_pos hexp]
      exact mfind_mdel_self _ hnd

/-- Witness for C7: storing one result in the empty analysis cache, an
immediate `get` hits; at a time past the 24-hour TTL the `get` misses and the
entry is gone. -/
theorem analysisCache_set_get_and_expiry_witness :
    (((analysisCache.set "慢" ⟨Sentiment.negative, Category.performance, ["卡顿"], "太慢"⟩ 0).get
        "慢" 0).1 = some ⟨Sentiment.negative, Category.performance, ["卡顿"], "太慢"⟩) ∧
    ((mkeys (analysisCache.set "慢" ⟨Sentiment.negative, Category.performance, ["卡顿"], "太慢"⟩ 0).cache).Nodup ∧
      mfind (hashContent "慢")
        (analysisCache.set "慢" ⟨Sentiment.negative, Category.performance, ["卡顿"], "太慢"⟩ 0).cache =
        some ⟨⟨Sentiment.negative, Category.performance, ["卡顿"], "太慢"⟩, 0⟩ ∧
      86400001 - 0 > analysisCache.ttl) ∧
    (((analysisCache.set "慢" ⟨Sentiment.negative, Category.performance, ["卡顿"], "太慢"⟩ 0).get
        "慢" 86400001).1 = none ∧
      mfind (hashContent "慢")
        (((analysisCache.set "慢" ⟨Sentiment.negative, Category.performance, ["卡顿"], "太慢"⟩ 0).get
          "慢" 86400001).2).cache = none) := by
  refine ⟨?_, ⟨?_, ?_, ?_⟩, ?_⟩
  · exact analysisCache_set_get_and_expiry.1 analysisCache "慢"
      ⟨Sentiment.negative, Category.performance, ["卡顿"], "太慢"⟩ 0
  · decide
  · decide
  · decide
  · exact analysisCache_set_get_and_expiry.2
      (analysisCache.set "慢" ⟨Sentiment.negative, Category.performance, ["卡顿"], "太慢"⟩ 0)
      "慢" ⟨⟨Sentiment.negative, Category.performance, ["卡顿"], "太慢"⟩, 0⟩ 86400001
      (by decide) (by decide) (by decide)

/-! ## Claim C6: eviction policy of the query cache

The claim calls the query cache a strict LRU: a `set` at capacity evicts
exactly the least-recently-touched key.  To examine it we instrument runs of
`get`/`set` operations with a ghost map recording, for every key, the step at
which it was last touched (written by `set`, or returned by a successful
`get`). -/

/-- One operation against the query cache. -/
inductive QueryOp : Type
  | getOp (key : String) (requireAI : Bool)
  | setOp (key : String) (data : List FeedbackItem) (aiAnalyzed : Bool)
deriving DecidableEq, Repr

/-- Cache state instrumented with last-touch bookkeeping.  The clock is used
both as the operation index and as the `Date.now()` value, so all operations
fall well inside the 5-minute TTL. -/
structure TrackedState : Type where
  cache : LRUCache
  lastTouch : List (String × Nat)
  clock : Nat
deriving DecidableEq, Repr

/-- Apply one operation, updating the ghost last-touch map. -/
def applyOp (s : TrackedState) (op : QueryOp) : TrackedState :=
  match op with
  | .getOp k r =>
      let res := s.cache.get k r s.clock
      { cache := res.2,
        lastTouch := if res.1.isSome then mset s.lastTouch k s.clock else s.lastTouch,
        clock := s.clock + 1 }
  | .setOp k d a =>
      { cache := s.cache.set k d a s.clock,
        lastTouch := mset s.lastTouch k s.clock,
        clock := s.clock + 1 }

/-- Run a sequence of operations. -/
def runOps (s : TrackedState) (ops : List QueryOp) : TrackedState :=
  ops.foldl applyOp s

/-- Fresh instrumented state over the module-level `feedbackCache` instance. -/
def initState : TrackedState := ⟨feedbackCache, [], 1⟩

/-- Key present in the query cache? -/
def hasKey (c : LRUCache) (k : String) : Bool := (mfind k c.cache).isSome

/-- An operation sequence exhibiting the non-LRU eviction: fill keys
`k01`..`k10`, overwrite `k02` (which, at capacity, evicts `k01` and updates
`k02` in place without refreshing its position), then add `k11`. -/
def lruOpsList : List QueryOp :=
  [QueryOp.setOp "k01" [] false, QueryOp.setOp "k02" [] false,
   QueryOp.setOp "k03" [] false, QueryOp.setOp "k04" [] false,
   QueryOp.setOp "k05" [] false, QueryOp.setOp "k06" [] false,
   QueryOp.setOp "k07" [] false, QueryOp.setOp "k08" [] false,
   QueryOp.setOp "k09" [] false, QueryOp.setOp "k10" [] false,
   QueryOp.setOp "k02" [] false, QueryOp.setOp "k11" [] false]

/-- Counterexample to claim C6.  After `lruOpsList` the cache holds exactly
`maxSize = 10` entries and contains both `k02` (last touched at step 11, by
the overwriting `set`) and `k03` (last touched at step 3).  The next `set`
("k12") therefore runs at capacity, and the strict-LRU claim demands that it
evict the least-recently-touched key, which is `k03`.  Instead the code
evicts `k02`, the key at the front of the insertion order, because `set` on
an existing key does not refresh its position: `k02` is gone afterwards
while `k03` is still present. -/
theorem lru_strict_eviction_counterexample :
    (runOps initState lruOpsList).cache.cache.length =
        (runOps initState lruOpsList).cache.maxSize ∧
    hasKey (runOps initState lruOpsList).cache "k02" = true ∧
    hasKey (runOps initState lruOpsList).cache "k03" = true ∧
    mfind "k02" (runOps initState lruOpsList).lastTouch = some 11 ∧
    mfind "k03" (runOps initState lruOpsList).lastTouch = some 3 ∧
    hasKey (applyOp (runOps initState lruOpsList)
        (QueryOp.setOp "k12" [] false)).cache "k02" = false ∧
    hasKey (applyOp (runOps initState lruOpsList)
        (QueryOp.setOp "k12" [] false)).cache "k03" = true := by
  decide

/-- Well-formedness of a query cache reachable by the pipeline: within
capacity, positive capacity, and no empty-string keys (the pipeline's keys
are `${from}-${to}` strings, never empty; an empty-string oldest key would
defeat the falsy `if (oldestKey)` eviction guard). -/
def GoodCache (c : LRUCache) : Prop :=
  c.cache.length ≤ c.maxSize ∧ 1 ≤ c.maxSize ∧ ∀ kv ∈ c.cache, kv.1 ≠ ""


/-- `get` preserves query-cache well-formedness. -/
theorem goodCache_get (c : LRUCache) (k : String) (r : Bool) (t : Nat)
    (h : GoodCache c) : GoodCache ((c.get k r t).2) := by
  obtain ⟨hlen, hmax, hkeys⟩ := h
  cases hfind : mfind k c.cache with
  | none =>
      have hq : (c.get k r t).2 = c := by simp [LRUCache.get, hfind]
      rw [hq]; exact ⟨hlen, hmax, hkeys⟩
  | some entry =>
      by_cases hexp : t - entry.timestamp > c.ttl
      · have hq : (c.get k r t).2 = { c with cache := mdel k c.cache } := by
          simp [LRUCache.get, hfind, hexp]
        rw [hq]
        refine ⟨?_, hmax, fun kv hkv => hkeys kv (mem_mdel hkv)⟩
        show (mdel k c.cache).length ≤ c.maxSize
        have h1 := length_mdel_mem (mem_mkeys_of_mfind hfind)
        omega
      · by_cases hai : (r && !entry.aiAnalyzed) = true
        · have hq : (c.get k r t).2 = c := by simp [LRUCache.get, hfind, hexp, hai]
          rw [hq]; exact ⟨hlen, hmax, hkeys⟩
        · have hq : (c.get k r t).2 = { c with cache := mset (mdel k c.cache) k ({ entry with accessCount := entry.accessCount + 1 }) } := by
            simp [LRUCache.get, hfind, hexp, hai]
          rw [hq]
          refine ⟨?_, hmax, ?_⟩
          · show (mset (mdel k c.cache) k
                { entry with accessCount := entry.accessCount + 1 }).length ≤ c.maxSize
            have h1 := length_mdel_mem (mem_mkeys_of_mfind hfind)
            have h2 := length_mset_le (mdel k c.cache) k
              ({ entry with accessCount := entry.accessCount + 1 } : CacheEntry)
            omega
          · intro kv hkv
            rcases mem_mset hkv with hkv' | hkv'
            · exact hkeys kv (mem_mdel hkv')
            · rw [hkv']
              obtain ⟨kv0, hkv0, hk0⟩ := List.mem_map.mp (mem_mkeys_of_mfind hfind)
              exact hk0 ▸ hkeys kv0 hkv0

/-- `set` with a nonempty key preserves query-cache well-formedness. -/
theorem goodCache_set (c : LRUCache) (k : String) (d : List FeedbackItem)
    (a : Bool) (t : Nat) (h : GoodCache c) (hk : k ≠ "") :
    GoodCache (c.set k d a t) := by
  obtain ⟨hlen, hmax, hkeys⟩ := h
  by_cases hcap : c.cache.length ≥ c.maxSize
  · cases hc : c.cache with
    | nil =>
        exfalso
        rw [hc] at hcap
        simp at hcap
        omega
    | cons kv0 rest =>
        obtain ⟨k0, e0⟩ := kv0
        have hk0 : k0 ≠ "" := hkeys (k0, e0) (by rw [hc]; exact List.mem_cons_self _ _)
        have hcap' : ((k0, e0) :: rest).length ≥ c.maxSize := hc ▸ hcap
        have hcap2 : c.maxSize ≤ rest.length + 1 := by simpa using hcap'
        have hset : (c.set k d a t).cache = mset rest k ⟨d, t, 1, a⟩ := by
          simp [LRUCache.set, hc, hcap2, hk0, mdel]
        refine ⟨?_, hmax, ?_⟩
        · show (c.set k d a t).cache.length ≤ c.maxSize
          rw [hset]
          have h2 := length_mset_le rest k (⟨d, t, 1, a⟩ : CacheEntry)
          have hlc : c.cache.length = rest.length + 1 := by rw [hc]; rfl
          omega
        · intro kv hkv
          rw [hset] at hkv
          rcases mem_mset hkv with hkv' | hkv'
          · exact hkeys kv (by rw [hc]; exact List.mem_cons_of_mem _ hkv')
          · rw [hkv']; exact hk
  · have hset : (c.set k d a t).cache = mset c.cache k ⟨d, t, 1, a⟩ := by
      simp [LRUCache.set, hcap]
    refine ⟨?_, hmax, ?_⟩
    · show (c.set k d a t).cache.length ≤ c.maxSize
      rw [hset]
      have := length_mset_le c.cache k (⟨d, t, 1, a⟩ : CacheEntry)
      omega
    · intro kv hkv
      rw [hset] at hkv
      rcases mem_mset hkv with hkv' | hkv'
      · exact hkeys kv hkv'
      · rw [hkv']; exact hk

/-- Nonempty-key condition for an operation. -/
def opKeyNonempty : QueryOp → Bool
  | .getOp _ _ => true
  | .setOp k _ _ => !(k == "")

/-- Claim C6, amended.  The query cache is capacity-bounded and evicts by
insertion order rather than by touch recency: (i) over any sequence of
`get`/`set` operations with nonempty `set` keys the cache never exceeds
`maxSize` entries; (ii) a `set` at capacity removes exactly the
oldest-inserted (front) key — which, as the counterexample shows, need not be
the least-recently-touched key, because an overwriting `set` updates an
existing key in place without refreshing its position — while every other
existing key survives and the written key is present afterwards; (iii) a
successful `get` re-inserts its key at the most-recent end of the order. -/
theorem lru_insertion_order_eviction :
    (∀ (ops : List QueryOp) (s : TrackedState),
        GoodCache s.cache → (∀ op ∈ ops, opKeyNonempty op = true) →
        GoodCache (runOps s ops).cache ∧
        (runOps s ops).cache.cache.length ≤ (runOps s ops).cache.maxSize) ∧
    (∀ (c : LRUCache) (k : String) (d : List FeedbackItem) (a : Bool) (t : Nat)
        (k0 : String) (e0 : CacheEntry) (rest : List (String × CacheEntry)),
        c.cache = (k0, e0) :: rest → c.cache.length ≥ c.maxSize → k0 ≠ "" →
        (mkeys c.cache).Nodup →
        (k ≠ k0 → mfind k0 (c.set k d a t).cache = none) ∧
        (∀ k', k' ≠ k0 → k' ≠ k →
          mfind k' (c.set k d a t).cache = mfind k' c.cache) ∧
        mfind k (c.set k d a t).cache = some ⟨d, t, 1, a⟩) ∧
    (∀ (c : LRUCache) (k : String) (r : Bool) (t : Nat) (d : List FeedbackItem),
        (mkeys c.cache).Nodup → (c.get k r t).1 = some d →
        mkeys ((c.get k r t).2).cache = mkeys (mdel k c.cache) ++ [k]) := by
  refine ⟨?_, ?_, ?_⟩
  · intro ops
    induction ops with
    | nil => intro s hs _; exact ⟨hs, hs.1⟩
    | cons op rest ih =>
        intro s hs hops
        have hop := hops op (List.mem_cons_self _ _)
        have hstep : GoodCache (applyOp s op).cache := by
          cases op with
          | getOp k r => exact goodCache_get s.cache k r s.clock hs
          | setOp k d a =>
              have hk : k ≠ "" := by simpa [opKeyNonempty] using hop
              exact goodCache_set s.cache k d a s.clock hs hk
        have hrest := ih (applyOp s op) hstep
          (fun o ho => hops o (List.mem_cons_of_mem _ ho))
        simpa [runOps, List.foldl_cons] using hrest
  · intro c k d a t k0 e0 rest hc hcap hk0 hnd
    have hcap' : ((k0, e0) :: rest).length ≥ c.maxSize := hc ▸ hcap
    have hcap2 : c.maxSize ≤ rest.length + 1 := by simpa using hcap'
    have hes : (c.set k d a t).cache = mset rest k ⟨d, t, 1, a⟩ := by
      simp [LRUCache.set, hc, hcap2, hk0, mdel]
    have hndc : (k0 :: mkeys rest).Nodup := by
      have hmk : mkeys c.cache = k0 :: mkeys rest := by rw [hc]; rfl
      rw [hmk] at hnd
      exact hnd
    have hk0rest : k0 ∉ mkeys rest := (List.nodup_cons.mp hndc).1
    refine ⟨?_, ?_, ?_⟩
    · intro hne
      rw [hes, mfind_mset_ne rest k k0 _ hne]
      exact mfind_eq_none_of_not_mem_mkeys hk0rest
    · intro k' hne0 hnek
      rw [hes, mfind_mset_ne rest k k' _ (fun hh => hnek hh.symm), hc]
      have hnk0 : ¬ k0 = k' := fun hh => hne0 hh.symm
      simp [hnk0]
    · rw [hes]; exact mfind_mset_self rest k _
  · intro c k r t d hnd hget
    cases hfind : mfind k c.cache with
    | none => simp [LRUCache.get, hfind] at hget
    | some entry =>
        by_cases hexp : t - entry.timestamp > c.ttl
        · simp [LRUCache.get, hfind, hexp] at hget
        · by_cases hai : (r && !entry.aiAnalyzed) = true
          · simp [LRUCache.get, hfind, hexp, hai] at hget
          · have hq : (c.get k r t).2.cache = mset (mdel k c.cache) k ({ entry with accessCount := entry.accessCount + 1 }) := by
              simp [LRUCache.get, hfind, hexp, hai]
            rw [hq, mset_eq_append_of_not_mem _ (not_mem_mkeys_mdel hnd)]
            simp [mkeys]

/-- Witness for the amended C6 theorem at concrete inputs: (i) running
`lruOpsList` from the fresh state keeps the cache within capacity; (ii) on a
two-entry cache of capacity 2, a `set` of a fresh key evicts the front key
`"a"`, keeps `"b"`, and stores the new key; (iii) a successful `get` moves
its key to the back. -/
theorem lru_insertion_order_eviction_witness :
    (GoodCache initState.cache ∧ (∀ op ∈ lruOpsList, opKeyNonempty op = true) ∧
      (runOps initState lruOpsList).cache.cache.length ≤
        (runOps initState lruOpsList).cache.maxSize) ∧
    (mfind "a" ((⟨[("a", ⟨[], 0, 1, false⟩), ("b", ⟨[], 0, 1, false⟩)], 2, 300000⟩ : LRUCache).set "c" [] false 5).cache = none ∧
      mfind "b" ((⟨[("a", ⟨[], 0, 1, false⟩), ("b", ⟨[], 0, 1, false⟩)], 2, 300000⟩ : LRUCache).set "c" [] false 5).cache =
        mfind "b" [("a", (⟨[], 0, 1, false⟩ : CacheEntry)), ("b", ⟨[], 0, 1, false⟩)] ∧
      mfind "c" ((⟨[("a", ⟨[], 0, 1, false⟩), ("b", ⟨[], 0, 1, false⟩)], 2, 300000⟩ : LRUCache).set "c" [] false 5).cache = some ⟨[], 5, 1, false⟩) ∧
    mkeys (((⟨[("a", ⟨[], 0, 1, false⟩), ("b", ⟨[], 0, 1, false⟩)], 2, 300000⟩ : LRUCache).get "a" false 5).2).cache =
      mkeys (mdel "a" [("a", (⟨[], 0, 1, false⟩ : CacheEntry)), ("b", ⟨[], 0, 1, false⟩)]) ++ ["a"] := by
  refine ⟨⟨⟨by decide, by decide, by decide⟩, by decide, ?_⟩, ⟨?_, ?_, ?_⟩, ?_⟩
  · exact (lru_insertion_order_eviction.1 lruOpsList initState
      ⟨by decide, by decide, by decide⟩ (by decide)).2
  · exact (lru_insertion_order_eviction.2.1
      (⟨[("a", ⟨[], 0, 1, false⟩), ("b", ⟨[], 0, 1, false⟩)], 2, 300000⟩ : LRUCache)
      "c" [] false 5 "a" ⟨[], 0, 1, false⟩ [("b", ⟨[], 0, 1, false⟩)]
      rfl (by decide) (by decide) (by decide)).1 (by decide)
  · exact (lru_insertion_order_eviction.2.1
      (⟨[("a", ⟨[], 0, 1, false⟩), ("b", ⟨[], 0, 1, false⟩)], 2, 300000⟩ : LRUCache)
      "c" [] false 5 "a" ⟨[], 0, 1, false⟩ [("b", ⟨[], 0, 1, false⟩)]
      rfl (by decide) (by decide) (by decide)).2.1 "b" (by decide) (by decide)
  · exact (lru_insertion_order_eviction.2.1
      (⟨[("a", ⟨[], 0, 1, false⟩), ("b", ⟨[], 0, 1, false⟩)], 2, 300000⟩ : LRUCache)
      "c" [] false 5 "a" ⟨[], 0, 1, false⟩ [("b", ⟨[], 0, 1, false⟩)]
      rfl (by decide) (by decide) (by decide)).2.2
  · exact lru_insertion_order_eviction.2.2
      (⟨[("a", ⟨[], 0, 1, false⟩), ("b", ⟨[], 0, 1, false⟩)], 2, 300000⟩ : LRUCache)
      "a" false 5 [] (by decide) (by decide)

/-! ## Deduplication by upstream id (feedback.ts lines 683-689)

`fetchFromFeishu` merges all chunk results into one `Map<number, item>`,
inserting in encounter order so that a later occurrence of an id overwrites
an earlier one, and takes the map's values. -/

/-- The dedup step of `fetchFromFeishu`. -/
def dedupeById (l : List FeishuFeedbackItem) : List FeishuFeedbackItem :=
  (l.foldl (fun m it => mset m it.id it) []).map (·.2)

theorem mkeys_mset {α β : Type} [DecidableEq α] (m : List (α × β)) (k : α) (v : β) :
    mkeys (mset m k v) = if k ∈ mkeys m then mkeys m else mkeys m ++ [k] := by
  induction m with
  | nil => simp [mset, mkeys]
  | cons hd rest ih =>
      obtain ⟨k', v'⟩ := hd
      by_cases hk : k' = k
      · subst hk
        simp [mset, mkeys]
      · have hne : ¬ k = k' := fun hh => hk hh.symm
        have hstep : mkeys (mset ((k', v') :: rest) k v) = k' :: mkeys (mset rest k v) := by
          simp [mset, hk, mkeys]
        have hcons : mkeys ((k', v') :: rest) = k' :: mkeys rest := rfl
        rw [hstep, hcons, ih]
        by_cases hmem : k ∈ mkeys rest
        · rw [if_pos hmem, if_pos (List.mem_cons_of_mem _ hmem)]
        · rw [if_neg hmem, if_neg ?_]
          · rfl
          · intro hc
            rcases List.mem_cons.mp hc with hc | hc
            · exact hne hc
            · exact hmem hc

theorem nodup_mkeys_mset {α β : Type} [DecidableEq α] {m : List (α × β)} (k : α) (v : β)
    (h : (mkeys m).Nodup) : (mkeys (mset m k v)).Nodup := by
  rw [mkeys_mset]
  by_cases hmem : k ∈ mkeys m
  · simpa [hmem] using h
  · simp only [hmem, if_false]
    rw [List.nodup_append]
    refine ⟨h, List.nodup_singleton k, ?_⟩
    intro a ha hb
    simp only [List.mem_singleton] at hb
    subst hb
    exact hmem ha

theorem isSome_mfind_of_mem_mkeys {α β : Type} [DecidableEq α]
    {m : List (α × β)} {k : α} (h : k ∈ mkeys m) : (mfind k m).isSome := by
  induction m with
  | nil => simp [mkeys] at h
  | cons hd rest ih =>
      obtain ⟨k', v'⟩ := hd
      by_cases hk : k' = k
      · simp [hk]
      · simp only [mkeys, List.map_cons, List.mem_cons] at h
        rcases h with h | h
        · exact absurd h.symm hk
        · simpa [hk] using ih h

/-- Looking up an id in the dedup map returns the last-encountered occurrence
of that id, falling back to the accumulator. -/
theorem mfind_dedup_foldl (l : List FeishuFeedbackItem)
    (m0 : List (Nat × FeishuFeedbackItem)) (i : Nat) :
    mfind i (l.foldl (fun m it => mset m it.id it) m0) =
      ((l.reverse.find? (fun it => it.id == i)).or (mfind i m0)) := by
  induction l generalizing m0 with
  | nil => simp
  | cons it rest ih =>
      rw [List.foldl_cons, ih, List.reverse_cons, List.find?_append]
      cases hfound : rest.reverse.find? (fun it => it.id == i) with
      | some x => simp
      | none =>
          by_cases hid : it.id = i
          · simp [hid, List.find?]
          · have hbeq : (it.id == i) = false := by simpa using hid
            simp [List.find?, hbeq, mfind_mset_ne _ _ _ _ hid]

/-- Values of an id-keyed association list whose entries carry their own key:
searching the values by id agrees with the map lookup. -/
theorem find?_values_eq_mfind (m : List (Nat × FeishuFeedbackItem))
    (hwf : ∀ kv ∈ m, kv.2.id = kv.1) (i : Nat) :
    (m.map (·.2)).find? (fun it => it.id == i) = mfind i m := by
  induction m with
  | nil => simp
  | cons hd rest ih =>
      obtain ⟨k, v⟩ := hd
      have hv : v.id = k := hwf (k, v) (List.mem_cons_self _ _)
      by_cases hk : k = i
      · simp [List.find?, hv, hk]
      · have hbeq : (v.id == i) = false := by simp [hv, hk]
        simp only [List.map_cons, List.find?, hbeq]
        rw [ih (fun kv hkv => hwf kv (List.mem_cons_of_mem _ hkv))]
        simp [hk]

theorem dedup_foldl_wf (l : List FeishuFeedbackItem)
    (m0 : List (Nat × FeishuFeedbackItem)) (hwf : ∀ kv ∈ m0, kv.2.id = kv.1) :
    ∀ kv ∈ l.foldl (fun m it => mset m it.id it) m0, kv.2.id = kv.1 := by
  induction l generalizing m0 with
  | nil => exact hwf
  | cons it rest ih =>
      rw [List.foldl_cons]
      refine ih (mset m0 it.id it) ?_
      intro kv hkv
      rcases mem_mset hkv with h | h
      · exact hwf kv h
      · rw [h]

theorem dedup_foldl_nodup (l : List FeishuFeedbackItem)
    (m0 : List (Nat × FeishuFeedbackItem)) (hnd : (mkeys m0).Nodup) :
    (mkeys (l.foldl (fun m it => mset m it.id it) m0)).Nodup := by
  induction l generalizing m0 with
  | nil => exact hnd
  | cons it rest ih =>
      rw [List.foldl_cons]
      exact ih (mset m0 it.id it) (nodup_mkeys_mset _ _ hnd)

/-- Claim C8: dedup produces exactly one record per upstream numeric id —
the output ids are duplicate-free and are exactly the input ids — and the
record kept for an id is the last-encountered occurrence of that id
(last-write-wins). -/
theorem dedupe_last_write_wins (l : List FeishuFeedbackItem) :
    ((dedupeById l).map (·.id)).Nodup ∧
    (∀ i : Nat, (dedupeById l).find? (fun it => it.id == i) =
      l.reverse.find? (fun it => it.id == i)) ∧
    (∀ i : Nat, i ∈ (dedupeById l).map (·.id) ↔ i ∈ l.map (·.id)) := by
  have hwf : ∀ kv ∈ l.foldl (fun m it => mset m it.id it) [], kv.2.id = kv.1 :=
    dedup_foldl_wf l [] (by simp)
  have hnd : (mkeys (l.foldl (fun m it => mset m it.id it) [])).Nodup :=
    dedup_foldl_nodup l [] (by simp [mkeys])
  have hids : (dedupeById l).map (·.id) =
      mkeys (l.foldl (fun m it => mset m it.id it) []) := by
    unfold dedupeById
    rw [List.map_map, mkeys]
    exact List.map_congr_left (fun kv hkv => hwf kv hkv)
  refine ⟨?_, ?_, ?_⟩
  · rw [hids]; exact hnd
  · intro i
    unfold dedupeById
    rw [find?_values_eq_mfind _ hwf i, mfind_dedup_foldl l [] i]
    simp
  · intro i
    rw [hids]
    constructor
    · intro hmem
      have hsome := isSome_mfind_of_mem_mkeys hmem
      rw [mfind_dedup_foldl l [] i] at hsome
      simp only [mfind_nil, Option.or_none, Option.isSome_iff_exists] at hsome
      obtain ⟨x, hx⟩ := hsome
      have hxl := List.find?_some hx
      have hmem2 := List.mem_reverse.mp (List.mem_of_find?_eq_some hx)
      exact List.mem_map.mpr ⟨x, hmem2, by simpa using hxl⟩
    · intro hmem
      obtain ⟨x, hxl, hxi⟩ := List.mem_map.mp hmem
      have hex : ∃ y ∈ l.reverse, (y.id == i) = true :=
        ⟨x, List.mem_reverse.mpr hxl, by simpa using hxi⟩
      have hsome := List.find?_isSome.mpr hex
      cases hfind : l.reverse.find? (fun it => it.id == i) with
      | none => rw [hfind] at hsome; simp at hsome
      | some y =>
          have : mfind i (l.foldl (fun m it => mset m it.id it) []) = some y := by
            rw [mfind_dedup_foldl l [] i, hfind]; simp
          exact mem_mkeys_of_mfind this

/-! ## Normalizer (`transformer.ts`)

The claims cite the AI-enabled transformer (`transformFeishuListWithAI` and
its helpers).  JavaScript `a || b` on strings is modelled by `jsOrElse`:
`none` and the empty string are falsy. -/

/-- `a || d` for an optional string `a`: falsy (absent or empty) falls back. -/
def jsOrElse (a : Option String) (d : String) : String :=
  match a with
  | none => d
  | some s => if s = "" then d else s

/-- `mapCategory` (transformer lines 7-18): lowercased fixed lookup,
defaulting to Unclassified for a falsy or unknown type. -/
def mapCategory (type : Option String) : Category :=
  match type with
  | none => Category.unclassified
  | some t =>
      if t = "" then Category.unclassified
      else if t.toLower = "moment" then Category.uxui
      else if t.toLower = "bug" then Category.bug
      else if t.toLower = "feature" then Category.feature
      else if t.toLower = "performance" then Category.performance
      else Category.unclassified

/-- `mapStatus` (transformer lines 23-34). -/
def mapStatus (status : Nat) : Status :=
  match status with
  | 1 => Status.new
  | 2 => Status.inProgress
  | 3 => Status.resolved
  | _ => Status.new

/-- `type.charAt(0).toUpperCase() + type.slice(1)`.  (`Char.toUpper` is
ASCII-only, which agrees with JavaScript on the ASCII type names used.) -/
def capitalizeFirst (s : String) : String :=
  match s.toList with
  | [] => ""
  | c :: rest => String.mk (c.toUpper :: rest)

/-- Helper for substring search: does `sub` occur starting at any position? -/
def containsAux (sub : List Char) : List Char → Bool
  | [] => sub.isEmpty
  | c :: rest => sub.isPrefixOf (c :: rest) || containsAux sub rest

/-- `content.includes(keyword)`. -/
def strContains (s sub : String) : Bool :=
  containsAux sub.toList s.toList

/-- The fixed keyword list of `extractTags` (transformer line 48). -/
def tagKeywords : List String :=
  ["美甲", "客拍", "塑形", "审核", "删除", "封号", "违规"]

/-- `extractTags` (transformer lines 39-56): the capitalized type first (when
truthy), then every matching keyword in list order, truncated to 5. -/
def extractTags (content : String) (type : Option String) : List String :=
  let typeTags : List String :=
    match type with
    | none => []
    | some t => if t = "" then [] else [capitalizeFirst t]
  (typeTags ++ tagKeywords.filter (fun kw => strContains content kw)).take 5

/-- `getAvatarUrl` (transformer lines 61-66). -/
def getAvatarUrl (avatar : Option String) : String :=
  match avatar with
  | none => "https://api.dicebear.com/7.x/avataaars/svg?seed=default"
  | some a =>
      if a = "" then "https://api.dicebear.com/7.x/avataaars/svg?seed=default" else a

/-- `transformFeishuToFeedback` (transformer lines 71-90): the normalizer.
Every record starts with rating 3, sentiment Pending and no `aiSummary`. -/
def transformFeishuToFeedback (item : FeishuFeedbackItem) : FeedbackItem :=
  { id := "f-" ++ toString item.id
    userId := toString item.user_id
    userName := jsOrElse item.nickName "Anonymous"
    userAvatar := getAvatarUrl item.avatar
    date := item.createTime
    content := jsOrElse item.content (jsOrElse item.momentsText "")
    rating := 3
    category := mapCategory item.type
    sentiment := Sentiment.pending
    tags := extractTags (jsOrElse item.content (jsOrElse item.momentsText "")) item.type
    aiSummary := none
    status := mapStatus item.status
    assignedTo := none
    type := item.type
    imageUrl := item.imageUrl
    momentsText := item.momentsText
    userType := item.userType
    contentType := item.contentType }

/-- `transformFeishuList` (transformer lines 95-97). -/
def transformFeishuList (items : List FeishuFeedbackItem) : List FeedbackItem :=
  items.map transformFeishuToFeedback

/-! ## Batch AI analysis (`geminiService.ts` lines 89-250)

The AI provider is an oracle: one call per chunk, returning `none` on request
failure / empty text / malformed JSON, or the parsed structured array
(tolerated to be shorter than the chunk — trailing items get no result).
Call counts are threaded explicitly so that claims about the number of
provider calls are statable. -/

/-- The external AI provider, one invocation per chunk. -/
def Provider : Type := List BatchAnalysisItem → Option (List AnalysisResult)

/-- The result-distribution loop of `analyzeBatchInSingleCall` (lines
152-159): `items.forEach((item, idx) => if (parsed[idx]) { results.set(...);
analysisCache.set(...) })`; a parsed array shorter than the chunk leaves the
trailing items unresolved. -/
def distributeGo (now : Nat) : List BatchAnalysisItem → List AnalysisResult →
    List (String × AnalysisResult) → AnalysisCache →
    List (String × AnalysisResult) × AnalysisCache
  | [], _, res, c => (res, c)
  | _ :: _, [], res, c => (res, c)
  | it :: rest, r :: rrest, res, c =>
      distributeGo now rest rrest (mset res it.id r) (c.set it.content r now)

/-- `analyzeBatchInSingleCall` (lines 89-167): one provider call per nonempty
chunk; on failure the error is caught and the empty map returned ("caller
will use defaults").  The third component counts provider calls (0 or 1). -/
def analyzeBatchInSingleCall (p : Provider) (c : AnalysisCache) (now : Nat)
    (items : List BatchAnalysisItem) :
    List (String × AnalysisResult) × AnalysisCache × Nat :=
  if items.isEmpty then ([], c, 0)
  else
    match p items with
    | none => ([], c, 1)
    | some parsed =>
        let d := distributeGo now items parsed [] c
        (d.1, d.2, 1)

/-- Step 1 of `analyzeInBatch` (lines 200-208): probe the cache for every
item, resolving hits immediately and queueing misses. -/
def cacheProbe (now : Nat) : List BatchAnalysisItem →
    List (String × AnalysisResult) → List BatchAnalysisItem → AnalysisCache →
    List (String × AnalysisResult) × List BatchAnalysisItem × AnalysisCache
  | [], res, unc, c => (res, unc, c)
  | it :: rest, res, unc, c =>
      let g := c.get it.content now
      match g.1 with
      | some r => cacheProbe now rest (mset res it.id r) unc g.2
      | none => cacheProbe now rest res (unc ++ [it]) g.2

/-- `for (let i = 0; i < len; i += chunkSize) chunks.push(slice(i, i +
chunkSize))` (lines 218-221).  Each step consumes at least one element when
`chunkSize ≥ 1` (the source loops forever on `chunkSize = 0`). -/
def chunkGo {α : Type} : Nat → List α → Nat → List (List α)
  | 0, _, _ => []
  | _, [], _ => []
  | fuel + 1, l, n => l.take n :: chunkGo fuel (l.drop n) n

/-- Step 2 of `analyzeInBatch`: split the uncached items into chunks. -/
def chunkList {α : Type} (l : List α) (n : Nat) : List (List α) :=
  chunkGo l.length l n

/-- Step 3 of `analyzeInBatch` (lines 228-247): process the chunks (windows
of `concurrency` chunks run in parallel; their results are merged in input
order, which the sequential fold reproduces), merging each chunk's map into
the running result and accumulating the provider-call count. -/
def runChunks (p : Provider) (now : Nat) : List (List BatchAnalysisItem) →
    List (String × AnalysisResult) → AnalysisCache → Nat →
    List (String × AnalysisResult) × AnalysisCache × Nat
  | [], res, c, calls => (res, c, calls)
  | ch :: rest, res, c, calls =>
      let r := analyzeBatchInSingleCall p c now ch
      runChunks p now rest (r.1.foldl (fun acc kv => mset acc kv.1 kv.2) res)
        r.2.1 (calls + r.2.2)

/-- `analyzeInBatch` (lines 183-250): cache probe, early return when
everything was cached (zero provider calls), else chunked analysis. -/
def analyzeInBatch (p : Provider) (c : AnalysisCache) (now : Nat)
    (items : List BatchAnalysisItem) (chunkSize : Nat) :
    List (String × AnalysisResult) × AnalysisCache × Nat :=
  let s1 := cacheProbe now items [] [] c
  if s1.2.1.isEmpty then (s1.1, s1.2.2, 0)
  else runChunks p now (chunkList s1.2.1 chunkSize) s1.1 s1.2.2 0

/-- `content.trim()`: strip leading and trailing whitespace.  (Implemented
over the character list so that it is kernel-computable; `String.trim`'s
byte-position auxiliaries do not reduce.) -/
def jsTrim (s : String) : String :=
  String.mk (((s.toList.dropWhile Char.isWhitespace).reverse.dropWhile
    Char.isWhitespace).reverse)

/-- Step 2 of `transformFeishuListWithAI` (transformer lines 122-128): keep
only records whose content has positive trimmed length. -/
def batchItemsOf (raw : List FeishuFeedbackItem) : List BatchAnalysisItem :=
  ((raw.map transformFeishuToFeedback).filter
      (fun it => decide (0 < (jsTrim it.content).length))).map
    (fun it => ⟨it.id, it.content⟩)

/-- Step 4 of `transformFeishuListWithAI` (transformer lines 144-153): apply
an analysis result when present; an id missing from the map leaves the
record unchanged (Pending, normalizer tags, no summary). -/
def applyAnalysis (res : List (String × AnalysisResult)) (item : FeedbackItem) :
    FeedbackItem :=
  match mfind item.id res with
  | none => item
  | some a =>
      { item with
        sentiment := a.sentiment
        category := a.category
        tags := if a.tags.length > 0 then a.tags else item.tags
        aiSummary := some a.summary }

/-- `transformFeishuListWithAI` (transformer lines 109-160). -/
def transformFeishuListWithAI (p : Provider) (c : AnalysisCache) (now : Nat)
    (items : List FeishuFeedbackItem) (chunkSize : Nat) :
    List FeedbackItem × AnalysisCache × Nat :=
  let feedbackItems := items.map transformFeishuToFeedback
  let batchItems := batchItemsOf items
  if batchItems.isEmpty then (feedbackItems, c, 0)
  else
    let r := analyzeInBatch p c now batchItems chunkSize
    (feedbackItems.map (applyAnalysis r.1), r.2.1, r.2.2)

/-! ## Lemmas about the batch-analysis pipeline -/

/-- A cache hit does not change the analysis-cache state. -/
theorem aGet_hit_state (c : AnalysisCache) (s : String) (t : Nat)
    (r : AnalysisResult) (h : (c.get s t).1 = some r) : (c.get s t).2 = c := by
  cases hfind : mfind (hashContent s) c.cache with
  | none => simp [AnalysisCache.get, hfind] at h
  | some entry =>
      by_cases hexp : t - entry.timestamp > c.ttl
      · simp [AnalysisCache.get, hfind, hexp] at h
      · simp [AnalysisCache.get, hfind, hexp]

/-- When every item hits the cache with the value recorded in `R`, the probe
resolves everything from the cache: no new uncached items, unchanged cache,
and the produced map agrees with `R` on the probed ids. -/
theorem cacheProbe_all_hits (t : Nat) (R : List (String × AnalysisResult)) :
    ∀ (items : List BatchAnalysisItem) (res0 : List (String × AnalysisResult))
      (unc0 : List BatchAnalysisItem) (c : AnalysisCache),
      (∀ it ∈ items, ∃ r, mfind it.id R = some r ∧ (c.get it.content t).1 = some r) →
      (cacheProbe t items res0 unc0 c).2.1 = unc0 ∧
      (cacheProbe t items res0 unc0 c).2.2 = c ∧
      ∀ k, mfind k (cacheProbe t items res0 unc0 c).1 =
        if k ∈ items.map (·.id) then mfind k R else mfind k res0 := by
  intro items
  induction items with
  | nil =>
      intro res0 unc0 c _
      refine ⟨rfl, rfl, fun k => ?_⟩
      simp [cacheProbe]
  | cons it rest ih =>
      intro res0 unc0 c hh
      obtain ⟨r, hr, hget⟩ := hh it (List.mem_cons_self _ _)
      have hstate := aGet_hit_state c it.content t r hget
      have hred : cacheProbe t (it :: rest) res0 unc0 c =
          cacheProbe t rest (mset res0 it.id r) unc0 c := by
        simp [cacheProbe, hget, hstate]
      obtain ⟨h1, h2, h3⟩ := ih (mset res0 it.id r) unc0 c
        (fun it' hit' => hh it' (List.mem_cons_of_mem _ hit'))
      refine ⟨by rw [hred]; exact h1, by rw [hred]; exact h2, fun k => ?_⟩
      rw [hred, h3 k]
      by_cases hmem : k ∈ rest.map (·.id)
      · have hc : k ∈ (it :: rest).map (·.id) := by
          simp only [List.map_cons, List.mem_cons]; right; exact hmem
        rw [if_pos hmem, if_pos hc]
      · by_cases hid : it.id = k
        · have hc : k ∈ (it :: rest).map (·.id) := by
            simp only [List.map_cons, List.mem_cons]; left; exact hid.symm
          rw [if_neg hmem, if_pos hc, mfind_mset, if_pos hid]
          rw [hid] at hr
          exact hr.symm
        · have hc : k ∉ (it :: rest).map (·.id) := by
            simp only [List.map_cons, List.mem_cons]
            push_neg
            exact ⟨fun hh2 => hid hh2.symm, hmem⟩
          rw [if_neg hmem, if_neg hc, mfind_mset_ne _ _ _ _ hid]

/-- Every id resolved by the distribution loop was an id of the chunk (or was
already in the accumulator). -/
theorem distributeGo_dom (t : Nat) :
    ∀ (its : List BatchAnalysisItem) (rs : List AnalysisResult)
      (res0 : List (String × AnalysisResult)) (c : AnalysisCache) (k : String),
      (mfind k (distributeGo t its rs res0 c).1).isSome →
      (mfind k res0).isSome ∨ k ∈ its.map (·.id) := by
  intro its
  induction its with
  | nil =>
      intro rs res0 c k h
      left; simpa [distributeGo] using h
  | cons it rest ih =>
      intro rs res0 c k h
      cases rs with
      | nil => left; simpa [distributeGo] using h
      | cons r rrest =>
          have hred : distributeGo t (it :: rest) (r :: rrest) res0 c =
              distributeGo t rest rrest (mset res0 it.id r) (c.set it.content r t) := rfl
          rw [hred] at h
          rcases ih rrest (mset res0 it.id r) _ k h with h' | h'
          · by_cases hid : it.id = k
            · right
              simp only [List.map_cons, List.mem_cons]; left; exact hid.symm
            · rw [mfind_mset_ne _ _ _ _ hid] at h'
              left; exact h'
          · right
            simp only [List.map_cons, List.mem_cons]; right; exact h'

/-- Every id in a single chunk call's result map is an id of that chunk. -/
theorem analyzeBatchInSingleCall_dom (p : Provider) (c : AnalysisCache) (t : Nat)
    (items : List BatchAnalysisItem) (k : String)
    (h : (mfind k (analyzeBatchInSingleCall p c t items).1).isSome) :
    k ∈ items.map (·.id) := by
  unfold analyzeBatchInSingleCall at h
  cases hi : items.isEmpty with
  | true => rw [if_pos hi] at h; simp at h
  | false =>
      rw [if_neg (by simp [hi])] at h
      cases hp : p items with
      | none => rw [hp] at h; simp at h
      | some parsed =>
          rw [hp] at h
          rcases distributeGo_dom t items parsed [] c k h with h' | h'
          · simp at h'
          · exact h'

/-- Every id resolved by the cache probe was an id of the probed items (or of
the accumulator). -/
theorem cacheProbe_dom (t : Nat) :
    ∀ (items : List BatchAnalysisItem) (res0 : List (String × AnalysisResult))
      (unc0 : List BatchAnalysisItem) (c : AnalysisCache) (k : String),
      (mfind k (cacheProbe t items res0 unc0 c).1).isSome →
      (mfind k res0).isSome ∨ k ∈ items.map (·.id) := by
  intro items
  induction items with
  | nil =>
      intro res0 unc0 c k h
      left; simpa [cacheProbe] using h
  | cons it rest ih =>
      intro res0 unc0 c k h
      cases hg : (c.get it.content t).1 with
      | some r =>
          have hred : cacheProbe t (it :: rest) res0 unc0 c =
              cacheProbe t rest (mset res0 it.id r) unc0 (c.get it.content t).2 := by
            simp [cacheProbe, hg]
          rw [hred] at h
          rcases ih (mset res0 it.id r) unc0 _ k h with h' | h'
          · by_cases hid : it.id = k
            · right; simp only [List.map_cons, List.mem_cons]; left; exact hid.symm
            · rw [mfind_mset_ne _ _ _ _ hid] at h'
              left; exact h'
          · right; simp only [List.map_cons, List.mem_cons]; right; exact h'
      | none =>
          have hred : cacheProbe t (it :: rest) res0 unc0 c =
              cacheProbe t rest res0 (unc0 ++ [it]) (c.get it.content t).2 := by
            simp [cacheProbe, hg]
          rw [hred] at h
          rcases ih res0 (unc0 ++ [it]) _ k h with h' | h'
          · left; exact h'
          · right; simp only [List.map_cons, List.mem_cons]; right; exact h'

/-- The uncached items collected by the probe come from the probed items (or
the accumulator). -/
theorem cacheProbe_unc (t : Nat) :
    ∀ (items : List BatchAnalysisItem) (res0 : List (String × AnalysisResult))
      (unc0 : List BatchAnalysisItem) (c : AnalysisCache),
      ∀ x ∈ (cacheProbe t items res0 unc0 c).2.1, x ∈ unc0 ∨ x ∈ items := by
  intro items
  induction items with
  | nil =>
      intro res0 unc0 c x hx
      left; simpa [cacheProbe] using hx
  | cons it rest ih =>
      intro res0 unc0 c x hx
      cases hg : (c.get it.content t).1 with
      | some r =>
          have hred : cacheProbe t (it :: rest) res0 unc0 c =
              cacheProbe t rest (mset res0 it.id r) unc0 (c.get it.content t).2 := by
            simp [cacheProbe, hg]
          rw [hred] at hx
          rcases ih (mset res0 it.id r) unc0 _ x hx with h' | h'
          · left; exact h'
          · right; exact List.mem_cons_of_mem _ h'
      | none =>
          have hred : cacheProbe t (it :: rest) res0 unc0 c =
              cacheProbe t rest res0 (unc0 ++ [it]) (c.get it.content t).2 := by
            simp [cacheProbe, hg]
          rw [hred] at hx
          rcases ih res0 (unc0 ++ [it]) _ x hx with h' | h'
          · rcases List.mem_append.mp h' with h'' | h''
            · left; exact h''
            · right
              simp only [List.mem_singleton] at h''
              rw [h'']; exact List.mem_cons_self _ _
          · right; exact List.mem_cons_of_mem _ h'

/-- Merging a result map into an accumulator only adds the merged keys. -/
theorem mergeFold_dom {α β : Type} [DecidableEq α] :
    ∀ (cres res : List (α × β)) (k : α),
      (mfind k (cres.foldl (fun acc kv => mset acc kv.1 kv.2) res)).isSome →
      (mfind k res).isSome ∨ k ∈ mkeys cres := by
  intro cres
  induction cres with
  | nil => intro res k h; left; simpa using h
  | cons kv rest ih =>
      intro res k h
      rw [List.foldl_cons] at h
      rcases ih (mset res kv.1 kv.2) k h with h' | h'
      · by_cases hk : kv.1 = k
        · right; simp only [mkeys, List.map_cons, List.mem_cons]; left; exact hk.symm
        · rw [mfind_mset_ne _ _ _ _ hk] at h'
          left; exact h'
      · right; simp only [mkeys, List.map_cons, List.mem_cons]; right; exact h'

/-- Every id resolved by the chunk runner comes from the accumulator or from
one of the chunks. -/
theorem runChunks_dom (p : Provider) (t : Nat) :
    ∀ (chunks : List (List BatchAnalysisItem))
      (res0 : List (String × AnalysisResult)) (c : AnalysisCache) (calls : Nat)
      (k : String),
      (mfind k (runChunks p t chunks res0 c calls).1).isSome →
      (mfind k res0).isSome ∨ ∃ ch ∈ chunks, k ∈ ch.map (·.id) := by
  intro chunks
  induction chunks with
  | nil => intro res0 c calls k h; left; simpa [runChunks] using h
  | cons ch rest ih =>
      intro res0 c calls k h
      have hred : runChunks p t (ch :: rest) res0 c calls =
          runChunks p t rest
            ((analyzeBatchInSingleCall p c t ch).1.foldl
              (fun acc kv => mset acc kv.1 kv.2) res0)
            (analyzeBatchInSingleCall p c t ch).2.1
            (calls + (analyzeBatchInSingleCall p c t ch).2.2) := rfl
      rw [hred] at h
      rcases ih _ _ _ k h with h' | h'
      · rcases mergeFold_dom _ res0 k h' with h'' | h''
        · left; exact h''
        · right
          refine ⟨ch, List.mem_cons_self _ _, ?_⟩
          exact analyzeBatchInSingleCall_dom p c t ch k (isSome_mfind_of_mem_mkeys h'')
      · right
        obtain ⟨ch', hch', hk⟩ := h'
        exact ⟨ch', List.mem_cons_of_mem _ hch', hk⟩

/-- Chunk elements come from the chunked list. -/
theorem chunkGo_subset {α : Type} :
    ∀ (fuel : Nat) (l : List α) (n : Nat),
      ∀ ch ∈ chunkGo fuel l n, ∀ x ∈ ch, x ∈ l := by
  intro fuel
  induction fuel with
  | zero => intro l n ch hch; simp [chunkGo] at hch
  | succ fuel ih =>
      intro l n ch hch x hx
      cases l with
      | nil => simp [chunkGo] at hch
      | cons a rest =>
          simp only [chunkGo, List.mem_cons] at hch
          rcases hch with hch | hch
          · exact List.take_subset n _ (hch ▸ hx)
          · exact List.drop_subset n _ (ih _ n ch hch x hx)

/-- Every id in `analyzeInBatch`'s output map is an id of the input items. -/
theorem analyzeInBatch_dom (p : Provider) (c : AnalysisCache) (t : Nat)
    (items : List BatchAnalysisItem) (n : Nat) (k : String)
    (h : (mfind k (analyzeInBatch p c t items n).1).isSome) :
    k ∈ items.map (·.id) := by
  simp only [analyzeInBatch] at h
  by_cases he : ((cacheProbe t items [] [] c).2.1).isEmpty
  · rw [if_pos he] at h
    rcases cacheProbe_dom t items [] [] c k h with h' | h'
    · simp at h'
    · exact h'
  · rw [if_neg he] at h
    rcases runChunks_dom p t _ _ _ _ k h with h' | h'
    · rcases cacheProbe_dom t items [] [] c k h' with h'' | h''
      · simp at h''
      · exact h''
    · obtain ⟨ch, hch, hk⟩ := h'
      obtain ⟨it, hit, hid⟩ := List.mem_map.mp hk
      have hit2 : it ∈ (cacheProbe t items [] [] c).2.1 :=
        chunkGo_subset _ _ _ ch hch it hit
      rcases cacheProbe_unc t items [] [] c it hit2 with h'' | h''
      · simp at h''
      · exact List.mem_map.mpr ⟨it, h'', hid⟩

/-- Claim C2: if after a first `analyzeInBatch` run every item's result is in
the content cache (each item's content, probed against the post-run cache,
yields exactly the result the first run's map assigned to that item's id),
then a second run over the same items issues zero provider calls and returns
a map identical to the first run's. -/
theorem analyzeInBatch_idempotent (p : Provider) (c0 : AnalysisCache)
    (t t' : Nat) (items : List BatchAnalysisItem) (n : Nat)
    (hwarm : ∀ it ∈ items, ∃ r,
      mfind it.id (analyzeInBatch p c0 t items n).1 = some r ∧
      (((analyzeInBatch p c0 t items n).2.1).get it.content t').1 = some r) :
    (analyzeInBatch p (analyzeInBatch p c0 t items n).2.1 t' items n).2.2 = 0 ∧
    ∀ k : String,
      mfind k (analyzeInBatch p (analyzeInBatch p c0 t items n).2.1 t' items n).1 =
        mfind k (analyzeInBatch p c0 t items n).1 := by
  have hdom : ∀ k v, mfind k (analyzeInBatch p c0 t items n).1 = some v →
      k ∈ items.map (·.id) := by
    intro k v hv
    exact analyzeInBatch_dom p c0 t items n k (by rw [hv]; rfl)
  generalize hA : analyzeInBatch p c0 t items n = A
  rw [hA] at hwarm hdom
  obtain ⟨hunc, hcache, hres⟩ := cacheProbe_all_hits t' A.1 items [] [] A.2.1 hwarm
  have hempty : ((cacheProbe t' items [] [] A.2.1).2.1).isEmpty = true := by
    rw [hunc]; rfl
  constructor
  · simp only [analyzeInBatch]
    rw [if_pos hempty]
  · intro k
    simp only [analyzeInBatch]
    rw [if_pos hempty]
    show mfind k (cacheProbe t' items [] [] A.2.1).1 = mfind k A.1
    rw [hres k]
    by_cases hmem : k ∈ items.map (·.id)
    · rw [if_pos hmem]
    · rw [if_neg hmem, mfind_nil]
      cases hfk : mfind k A.1 with
      | none => rfl
      | some v => exact absurd (hdom k v hfk) hmem

/-- Concrete analysis result used by witnesses. -/
def wResult : AnalysisResult :=
  ⟨Sentiment.negative, Category.bug, ["闪退", "崩溃"], "应用闪退"⟩

/-- A provider that answers every chunk in full. -/
def wProvider : Provider := fun ch => some (ch.map (fun _ => wResult))

/-- A one-item batch. -/
def wItems : List BatchAnalysisItem := [⟨"f-1", "应用闪退了"⟩]

set_option maxRecDepth 100000 in
/-- Witness for C2: after the first run over `wItems` warms the cache, the
second run issues zero provider calls and returns the same value for the
item's id. -/
theorem analyzeInBatch_idempotent_witness :
    (∀ it ∈ wItems, ∃ r,
      mfind it.id (analyzeInBatch wProvider analysisCache 0 wItems 30).1 = some r ∧
      (((analyzeInBatch wProvider analysisCache 0 wItems 30).2.1).get it.content 1).1 = some r) ∧
    (analyzeInBatch wProvider
        (analyzeInBatch wProvider analysisCache 0 wItems 30).2.1 1 wItems 30).2.2 = 0 ∧
    mfind "f-1" (analyzeInBatch wProvider
        (analyzeInBatch wProvider analysisCache 0 wItems 30).2.1 1 wItems 30).1 =
      mfind "f-1" (analyzeInBatch wProvider analysisCache 0 wItems 30).1 := by
  have hw : ∀ it ∈ wItems, ∃ r,
      mfind it.id (analyzeInBatch wProvider analysisCache 0 wItems 30).1 = some r ∧
      (((analyzeInBatch wProvider analysisCache 0 wItems 30).2.1).get it.content 1).1 = some r := by
    intro it hit
    simp only [wItems, List.mem_singleton] at hit
    subst hit
    exact ⟨wResult, by decide, by decide⟩
  have h := analyzeInBatch_idempotent wProvider analysisCache 0 1 wItems 30 hw
  exact ⟨hw, h.1, h.2 "f-1"⟩

/-! ## Value provenance: every analysis result in the output map comes from
the provider or from the content cache -/

theorem mfind_some_mem {α β : Type} [DecidableEq α] {m : List (α × β)} {k : α}
    {v : β} (h : mfind k m = some v) : (k, v) ∈ m := by
  induction m with
  | nil => simp [mfind] at h
  | cons kv rest ih =>
      obtain ⟨k', v'⟩ := kv
      by_cases hk : k' = k
      · subst hk
        have h3 : v' = v := by simpa using h
        rw [← h3]
        exact List.mem_cons_self _ _
      · simp only [mfind_cons, hk, if_false] at h
        exact List.mem_cons_of_mem _ (ih h)

/-- A cache hit returns a result stored in the cache. -/
theorem aGet_some_val (c : AnalysisCache) (s : String) (t : Nat)
    (r : AnalysisResult) (P : AnalysisResult → Prop)
    (hc : ∀ kv ∈ c.cache, P kv.2.result) (h : (c.get s t).1 = some r) : P r := by
  cases hfind : mfind (hashContent s) c.cache with
  | none => simp [AnalysisCache.get, hfind] at h
  | some entry =>
      by_cases hexp : t - entry.timestamp > c.ttl
      · simp [AnalysisCache.get, hfind, hexp] at h
      · have : r = entry.result := by
          have := h
          simp [AnalysisCache.get, hfind, hexp] at this
          exact this.symm
        rw [this]
        exact hc _ (mfind_some_mem hfind)

/-- `get` never adds cache entries. -/
theorem aGet_state_subset (c : AnalysisCache) (s : String) (t : Nat) :
    ∀ kv ∈ ((c.get s t).2).cache, kv ∈ c.cache := by
  intro kv hkv
  cases hfind : mfind (hashContent s) c.cache with
  | none => simpa [AnalysisCache.get, hfind] using hkv
  | some entry =>
      by_cases hexp : t - entry.timestamp > c.ttl
      · have : ((c.get s t).2).cache = mdel (hashContent s) c.cache := by
          simp [AnalysisCache.get, hfind, hexp]
        rw [this] at hkv
        exact mem_mdel hkv
      · have : ((c.get s t).2).cache = c.cache := by
          simp [AnalysisCache.get, hfind, hexp]
        rw [this] at hkv
        exact hkv

/-- Values resolved by the cache probe satisfy any predicate holding for all
cached results and all accumulator values. -/
theorem cacheProbe_values (t : Nat) (P : AnalysisResult → Prop) :
    ∀ (items : List BatchAnalysisItem) (res0 : List (String × AnalysisResult))
      (unc0 : List BatchAnalysisItem) (c : AnalysisCache),
      (∀ kv ∈ c.cache, P kv.2.result) → (∀ kv ∈ res0, P kv.2) →
      ∀ kv ∈ (cacheProbe t items res0 unc0 c).1, P kv.2 := by
  intro items
  induction items with
  | nil =>
      intro res0 unc0 c _ hres kv hkv
      exact hres kv (by simpa [cacheProbe] using hkv)
  | cons it rest ih =>
      intro res0 unc0 c hc hres kv hkv
      have hc' : ∀ kv' ∈ ((c.get it.content t).2).cache, P kv'.2.result :=
        fun kv' hkv' => hc kv' (aGet_state_subset c it.content t kv' hkv')
      cases hg : (c.get it.content t).1 with
      | some r =>
          have hred : cacheProbe t (it :: rest) res0 unc0 c =
              cacheProbe t rest (mset res0 it.id r) unc0 (c.get it.content t).2 := by
            simp [cacheProbe, hg]
          rw [hred] at hkv
          refine ih (mset res0 it.id r) unc0 _ hc' ?_ kv hkv
          intro kv' hkv'
          rcases mem_mset hkv' with h' | h'
          · exact hres kv' h'
          · rw [h']
            exact aGet_some_val c it.content t r P hc hg
      | none =>
          have hred : cacheProbe t (it :: rest) res0 unc0 c =
              cacheProbe t rest res0 (unc0 ++ [it]) (c.get it.content t).2 := by
            simp [cacheProbe, hg]
          rw [hred] at hkv
          exact ih res0 (unc0 ++ [it]) _ hc' hres kv hkv

/-- Values written by the distribution loop come from the parsed array or
from the accumulator. -/
theorem distributeGo_values (t : Nat) (P : AnalysisResult → Prop) :
    ∀ (its : List BatchAnalysisItem) (rs : List AnalysisResult)
      (res0 : List (String × AnalysisResult)) (c : AnalysisCache),
      (∀ kv ∈ res0, P kv.2) → (∀ r ∈ rs, P r) →
      ∀ kv ∈ (distributeGo t its rs res0 c).1, P kv.2 := by
  intro its
  induction its with
  | nil => intro rs res0 c hres _ kv hkv; exact hres kv (by simpa [distributeGo] using hkv)
  | cons it rest ih =>
      intro rs res0 c hres hrs kv hkv
      cases rs with
      | nil => exact hres kv (by simpa [distributeGo] using hkv)
      | cons r rrest =>
          have hred : distributeGo t (it :: rest) (r :: rrest) res0 c =
              distributeGo t rest rrest (mset res0 it.id r) (c.set it.content r t) := rfl
          rw [hred] at hkv
          refine ih rrest (mset res0 it.id r) _ ?_
            (fun r' hr' => hrs r' (List.mem_cons_of_mem _ hr')) kv hkv
          intro kv' hkv'
          rcases mem_mset hkv' with h' | h'
          · exact hres kv' h'
          · rw [h']
            exact hrs r (List.mem_cons_self _ _)

/-- Values of a single chunk call come from the provider's answer. -/
theorem analyzeBatchInSingleCall_values (p : Provider) (c : AnalysisCache)
    (t : Nat) (ch : List BatchAnalysisItem) (P : AnalysisResult → Prop)
    (hp : ∀ rs, p ch = some rs → ∀ r ∈ rs, P r) :
    ∀ kv ∈ (analyzeBatchInSingleCall p c t ch).1, P kv.2 := by
  intro kv hkv
  unfold analyzeBatchInSingleCall at hkv
  cases hi : ch.isEmpty with
  | true => rw [if_pos hi] at hkv; simp at hkv
  | false =>
      rw [if_neg (by simp [hi])] at hkv
      cases hpch : p ch with
      | none => rw [hpch] at hkv; simp at hkv
      | some rs =>
          rw [hpch] at hkv
          exact distributeGo_values t P ch rs [] c (by simp) (hp rs hpch) kv hkv

/-- Membership in a merged result map. -/
theorem mergeFold_mem {α β : Type} [DecidableEq α] :
    ∀ (cres res : List (α × β)) (kv : α × β),
      kv ∈ cres.foldl (fun acc x => mset acc x.1 x.2) res → kv ∈ res ∨ kv ∈ cres := by
  intro cres
  induction cres with
  | nil => intro res kv h; left; simpa using h
  | cons x rest ih =>
      intro res kv h
      rw [List.foldl_cons] at h
      rcases ih (mset res x.1 x.2) kv h with h' | h'
      · rcases mem_mset h' with h'' | h''
        · left; exact h''
        · right
          rw [h'']
          exact List.mem_cons_self _ _
      · right; exact List.mem_cons_of_mem _ h'

/-- Values produced by the chunk runner come from the provider or the
accumulator. -/
theorem runChunks_values (p : Provider) (t : Nat) (P : AnalysisResult → Prop)
    (hp : ∀ ch rs, p ch = some rs → ∀ r ∈ rs, P r) :
    ∀ (chunks : List (List BatchAnalysisItem))
      (res0 : List (String × AnalysisResult)) (c : AnalysisCache) (calls : Nat),
      (∀ kv ∈ res0, P kv.2) →
      ∀ kv ∈ (runChunks p t chunks res0 c calls).1, P kv.2 := by
  intro chunks
  induction chunks with
  | nil => intro res0 c calls hres kv hkv; exact hres kv (by simpa [runChunks] using hkv)
  | cons ch rest ih =>
      intro res0 c calls hres kv hkv
      have hred : runChunks p t (ch :: rest) res0 c calls =
          runChunks p t rest
            ((analyzeBatchInSingleCall p c t ch).1.foldl
              (fun acc x => mset acc x.1 x.2) res0)
            (analyzeBatchInSingleCall p c t ch).2.1
            (calls + (analyzeBatchInSingleCall p c t ch).2.2) := rfl
      rw [hred] at hkv
      refine ih _ _ _ ?_ kv hkv
      intro kv' hkv'
      rcases mergeFold_mem _ res0 kv' hkv' with h' | h'
      · exact hres kv' h'
      · exact analyzeBatchInSingleCall_values p c t ch P (fun rs hrs => hp ch rs hrs) kv' h'

/-- Every value in `analyzeInBatch`'s output map satisfies any predicate
holding for all provider answers and all initially cached results. -/
theorem analyzeInBatch_values (p : Provider) (c0 : AnalysisCache) (t : Nat)
    (items : List BatchAnalysisItem) (n : Nat) (P : AnalysisResult → Prop)
    (hp : ∀ ch rs, p ch = some rs → ∀ r ∈ rs, P r)
    (hc : ∀ kv ∈ c0.cache, P kv.2.result) :
    ∀ (k : String) (v : AnalysisResult),
      mfind k (analyzeInBatch p c0 t items n).1 = some v → P v := by
  intro k v hfind
  have hmem := mfind_some_mem hfind
  simp only [analyzeInBatch] at hmem
  by_cases he : ((cacheProbe t items [] [] c0).2.1).isEmpty
  · rw [if_pos he] at hmem
    exact cacheProbe_values t P items [] [] c0 hc (by simp) _ hmem
  · rw [if_neg he] at hmem
    refine runChunks_values p t P hp _ _ _ _ ?_ _ hmem
    exact cacheProbe_values t P items [] [] c0 hc (by simp)

/-- Claim C9: when the provider only ever returns non-Pending sentiments (the
schema constrains it to Positive/Negative/Neutral) and the content cache
holds only such results (it is only ever written with provider answers),
every record produced by `transformFeishuListWithAI` satisfies the invariant
`sentiment = Pending → aiSummary` is absent: unanalyzed records keep the
normalizer's Pending-and-no-summary state, and enrichment sets a non-Pending
sentiment and the summary together. -/
theorem pending_implies_no_summary (p : Provider) (c0 : AnalysisCache) (t : Nat)
    (raw : List FeishuFeedbackItem) (n : Nat)
    (hp : ∀ ch rs, p ch = some rs → ∀ r ∈ rs, r.sentiment ≠ Sentiment.pending)
    (hc : ∀ kv ∈ c0.cache, kv.2.result.sentiment ≠ Sentiment.pending) :
    ∀ rec ∈ (transformFeishuListWithAI p c0 t raw n).1,
      rec.sentiment = Sentiment.pending → rec.aiSummary = none := by
  intro rec hrec hpend
  simp only [transformFeishuListWithAI] at hrec
  by_cases he : (batchItemsOf raw).isEmpty
  · rw [if_pos he] at hrec
    obtain ⟨item, _, hitem⟩ := List.mem_map.mp hrec
    rw [← hitem]
    rfl
  · rw [if_neg he] at hrec
    obtain ⟨fb, _, hfb⟩ := List.mem_map.mp hrec
    rcases hfind : mfind fb.id
        (analyzeInBatch p c0 t (batchItemsOf raw) n).1 with _ | a
    · rw [← hfb]
      obtain ⟨item, _, hitem⟩ := List.mem_map.mp (by exact ‹fb ∈ raw.map transformFeishuToFeedback›)
      simp only [applyAnalysis, hfind]
      rw [← hitem]
      rfl
    · exfalso
      have hsent : rec.sentiment = a.sentiment := by
        rw [← hfb]
        simp [applyAnalysis, hfind]
      exact analyzeInBatch_values p c0 t (batchItemsOf raw) n
        (fun r => r.sentiment ≠ Sentiment.pending) hp hc fb.id a hfind
        (by rw [← hsent, hpend])

/-- Witness for C9 on a concrete run: a two-item batch (one with content, one
blank) through `wProvider` yields records all satisfying the invariant. -/
theorem pending_implies_no_summary_witness :
    ((∀ ch rs, wProvider ch = some rs → ∀ r ∈ rs, r.sentiment ≠ Sentiment.pending) ∧
      (∀ kv ∈ analysisCache.cache, kv.2.result.sentiment ≠ Sentiment.pending)) ∧
    (∀ rec ∈ (transformFeishuListWithAI wProvider analysisCache 0
        [⟨1, 7, some "u", none, "2024-01-01", some "应用闪退了", none, some "bug", 1, none, none, some 0⟩,
         ⟨2, 8, none, none, "2024-01-02", none, some "", none, 2, none, none, none⟩] 30).1,
      rec.sentiment = Sentiment.pending → rec.aiSummary = none) := by
  have hp : ∀ ch rs, wProvider ch = some rs →
      ∀ r ∈ rs, r.sentiment ≠ Sentiment.pending := by
    intro ch rs hrs r hr
    simp only [wProvider, Option.some.injEq] at hrs
    rw [← hrs] at hr
    obtain ⟨_, _, hre⟩ := List.mem_map.mp hr
    rw [← hre]
    decide
  refine ⟨⟨hp, by simp [analysisCache]⟩, ?_⟩
  exact pending_implies_no_summary wProvider analysisCache 0 _ 30 hp
    (by simp [analysisCache])

/-- Claim C10: an upstream item whose `content` and `momentsText` are both
absent or empty is never part of any AI-provider batch (the transform filters
to positively-trimmed content before batching, so no batch item — and hence
no chunk item — carries its id), and its output record keeps content `""`,
sentiment Pending and no `aiSummary`; such an item cannot leave the Pending
state through this pipeline. -/
theorem blank_content_stays_pending (p : Provider) (c : AnalysisCache) (t : Nat)
    (raw : List FeishuFeedbackItem) (n : Nat) (idx : Nat)
    (item : FeishuFeedbackItem)
    (hids : ((raw.map transformFeishuToFeedback).map (·.id)).Nodup)
    (hidx : raw.get? idx = some item)
    (hcontent : (item.content = none ∨ item.content = some "") ∧
      (item.momentsText = none ∨ item.momentsText = some "")) :
    (∀ b ∈ batchItemsOf raw, b.id ≠ (transformFeishuToFeedback item).id) ∧
    (∀ ch ∈ chunkList ((cacheProbe t (batchItemsOf raw) [] [] c).2.1) n,
      ∀ b ∈ ch, b.id ≠ (transformFeishuToFeedback item).id) ∧
    ((transformFeishuListWithAI p c t raw n).1.get? idx =
      some (transformFeishuToFeedback item) ∧
      (transformFeishuToFeedback item).content = "" ∧
      (transformFeishuToFeedback item).sentiment = Sentiment.pending ∧
      (transformFeishuToFeedback item).aiSummary = none) := by
  have hcont0 : (transformFeishuToFeedback item).content = "" := by
    rcases hcontent with ⟨hc1, hc2⟩
    rcases hc1 with hc1 | hc1 <;> rcases hc2 with hc2 | hc2 <;>
      simp [transformFeishuToFeedback, jsOrElse, hc1, hc2]
  have hmem_idx : transformFeishuToFeedback item ∈ raw.map transformFeishuToFeedback :=
    List.mem_map_of_mem _ (List.get?_mem hidx)
  have part1 : ∀ b ∈ batchItemsOf raw, b.id ≠ (transformFeishuToFeedback item).id := by
    intro b hb heq
    obtain ⟨fb, hfb_filter, hfb_eq⟩ := List.mem_map.mp hb
    have hfb_mem : fb ∈ raw.map transformFeishuToFeedback :=
      List.mem_of_mem_filter hfb_filter
    have hfb_pred := List.of_mem_filter hfb_filter
    have hfid : fb.id = (transformFeishuToFeedback item).id := by
      rw [← hfb_eq] at heq
      exact heq
    have hfb_eq_item : fb = transformFeishuToFeedback item :=
      List.inj_on_of_nodup_map hids hfb_mem hmem_idx hfid
    rw [hfb_eq_item, hcont0] at hfb_pred
    exact absurd hfb_pred (by decide)
  have part2 : ∀ ch ∈ chunkList ((cacheProbe t (batchItemsOf raw) [] [] c).2.1) n,
      ∀ b ∈ ch, b.id ≠ (transformFeishuToFeedback item).id := by
    intro ch hch b hb
    have hb_unc : b ∈ (cacheProbe t (batchItemsOf raw) [] [] c).2.1 :=
      chunkGo_subset _ _ _ ch hch b hb
    rcases cacheProbe_unc t (batchItemsOf raw) [] [] c b hb_unc with h' | h'
    · simp at h'
    · exact part1 b h'
  have hnores : mfind (transformFeishuToFeedback item).id
      (analyzeInBatch p c t (batchItemsOf raw) n).1 = none := by
    cases hf : mfind (transformFeishuToFeedback item).id
        (analyzeInBatch p c t (batchItemsOf raw) n).1 with
    | none => rfl
    | some v =>
        exfalso
        have hdm := analyzeInBatch_dom p c t (batchItemsOf raw) n _ (by rw [hf]; rfl)
        obtain ⟨b, hbmem, hbid⟩ := List.mem_map.mp hdm
        exact part1 b hbmem hbid
  refine ⟨part1, part2, ?_, hcont0, rfl, rfl⟩
  simp only [transformFeishuListWithAI]
  by_cases he : (batchItemsOf raw).isEmpty
  · rw [if_pos he]
    rw [List.get?_map, hidx]
    rfl
  · rw [if_neg he]
    show ((raw.map transformFeishuToFeedback).map
        (applyAnalysis (analyzeInBatch p c t (batchItemsOf raw) n).1)).get? idx = _
    rw [List.get?_map, List.get?_map, hidx]
    simp only [Option.map_some']
    rw [show applyAnalysis (analyzeInBatch p c t (batchItemsOf raw) n).1
        (transformFeishuToFeedback item) = transformFeishuToFeedback item by
      simp [applyAnalysis, hnores]]

/-- Concrete raw inputs used by witnesses: one item with content, one item
with empty content and momentsText. -/
def wBlankItem : FeishuFeedbackItem :=
  ⟨2, 8, none, none, "2024-01-02", none, some "", none, 2, none, none, none⟩

/-- A two-item raw list whose second item is blank. -/
def wRaw : List FeishuFeedbackItem :=
  [⟨1, 7, some "u", none, "2024-01-01", some "应用闪退了", none, some "bug", 1, none, none, some 0⟩,
   wBlankItem]

set_option maxRecDepth 100000 in
/-- Witness for C10: the blank item of `wRaw` stays Pending with empty
content and no summary through the AI transform. -/
theorem blank_content_stays_pending_witness :
    (((wRaw.map transformFeishuToFeedback).map (·.id)).Nodup ∧
      wRaw.get? 1 = some wBlankItem ∧
      ((wBlankItem.content = none ∨ wBlankItem.content = some "") ∧
        (wBlankItem.momentsText = none ∨ wBlankItem.momentsText = some ""))) ∧
    ((transformFeishuListWithAI wProvider analysisCache 0 wRaw 30).1.get? 1 =
      some (transformFeishuToFeedback wBlankItem) ∧
      (transformFeishuToFeedback wBlankItem).content = "" ∧
      (transformFeishuToFeedback wBlankItem).sentiment = Sentiment.pending ∧
      (transformFeishuToFeedback wBlankItem).aiSummary = none) := by
  refine ⟨⟨by decide, by decide, by decide⟩, ?_⟩
  exact (blank_content_stays_pending wProvider analysisCache 0 wRaw 30 1 wBlankItem
    (by decide) (by decide) (by decide)).2.2

/-! ## Chunk-failure isolation lemmas -/

/-- The result component of the distribution loop does not depend on the
cache state or the clock. -/
theorem distributeGo_fst_irrel (t t' : Nat) :
    ∀ (its : List BatchAnalysisItem) (rs : List AnalysisResult)
      (res0 : List (String × AnalysisResult)) (c c' : AnalysisCache),
      (distributeGo t its rs res0 c).1 = (distributeGo t' its rs res0 c').1 := by
  intro its
  induction its with
  | nil => intro rs res0 c c'; rfl
  | cons it rest ih =>
      intro rs res0 c c'
      cases rs with
      | nil => rfl
      | cons r rrest => exact ih rrest (mset res0 it.id r) _ _

/-- The result map of a single chunk call does not depend on the cache state
or the clock. -/
theorem analyzeBatchInSingleCall_fst_irrel (p : Provider) (t t' : Nat)
    (ch : List BatchAnalysisItem) (c c' : AnalysisCache) :
    (analyzeBatchInSingleCall p c t ch).1 = (analyzeBatchInSingleCall p c' t' ch).1 := by
  unfold analyzeBatchInSingleCall
  by_cases hi : ch.isEmpty = true
  · rw [if_pos hi, if_pos hi]
  · rw [if_neg hi, if_neg hi]
    cases hp : p ch with
    | none => rfl
    | some rs =>
        simp only
        rw [distributeGo_fst_irrel t t' ch rs [] c c']

/-- Merging results does not change keys that are not in the merged map. -/
theorem mergeFold_not_mem {α β : Type} [DecidableEq α] :
    ∀ (cres res : List (α × β)) (k : α), k ∉ mkeys cres →
      mfind k (cres.foldl (fun acc x => mset acc x.1 x.2) res) = mfind k res := by
  intro cres
  induction cres with
  | nil => intro res k _; rfl
  | cons x rest ih =>
      intro res k hk
      simp only [mkeys, List.map_cons, List.mem_cons] at hk
      push_neg at hk
      rw [List.foldl_cons, ih _ k hk.2, mfind_mset_ne _ _ _ _ (fun h => hk.1 h.symm)]

/-- For duplicate-free merged keys, merging makes the accumulator agree with
the merged map on its keys. -/
theorem mergeFold_mem_nodup {α β : Type} [DecidableEq α] :
    ∀ (cres res : List (α × β)) (k : α), (mkeys cres).Nodup → k ∈ mkeys cres →
      mfind k (cres.foldl (fun acc x => mset acc x.1 x.2) res) = mfind k cres := by
  intro cres
  induction cres with
  | nil => intro res k _ hk; simp [mkeys] at hk
  | cons x rest ih =>
      intro res k hnd hk
      obtain ⟨a, b⟩ := x
      have hnd2 : a ∉ mkeys rest ∧ (mkeys rest).Nodup := List.nodup_cons.mp hnd
      rw [List.foldl_cons]
      by_cases hkx : k = a
      · subst hkx
        rw [mergeFold_not_mem rest _ k hnd2.1, mfind_mset_self]
        simp [mfind_cons]
      · have hk' : k ∈ mkeys rest := by
          simp only [mkeys, List.map_cons, List.mem_cons] at hk
          rcases hk with h | h
          · exact absurd h hkx
          · exact h
        rw [ih _ k hnd2.2 hk']
        have hne : ¬ a = k := fun h => hkx h.symm
        simp [mfind_cons, hne]

/-- Keys of the distribution loop's output stay duplicate-free. -/
theorem distributeGo_nodup_keys (t : Nat) :
    ∀ (its : List BatchAnalysisItem) (rs : List AnalysisResult)
      (res0 : List (String × AnalysisResult)) (c : AnalysisCache),
      (mkeys res0).Nodup → (mkeys (distributeGo t its rs res0 c).1).Nodup := by
  intro its
  induction its with
  | nil => intro rs res0 c h; exact h
  | cons it rest ih =>
      intro rs res0 c h
      cases rs with
      | nil => exact h
      | cons r rrest => exact ih rrest _ _ (nodup_mkeys_mset _ _ h)

/-- Keys of a single chunk call's result map are duplicate-free. -/
theorem analyzeBatchInSingleCall_nodup_keys (p : Provider) (c : AnalysisCache)
    (t : Nat) (ch : List BatchAnalysisItem) :
    (mkeys (analyzeBatchInSingleCall p c t ch).1).Nodup := by
  unfold analyzeBatchInSingleCall
  by_cases hi : ch.isEmpty = true
  · rw [if_pos hi]; simp [mkeys]
  · rw [if_neg hi]
    cases hp : p ch with
    | none => simp [mkeys]
    | some rs => exact distributeGo_nodup_keys t ch rs [] c (by simp [mkeys])

/-- Keys not occurring in any chunk are untouched by the chunk runner. -/
theorem runChunks_none (p : Provider) (t : Nat) :
    ∀ (chunks : List (List BatchAnalysisItem))
      (res0 : List (String × AnalysisResult)) (c : AnalysisCache) (calls : Nat)
      (k : String),
      (∀ ch ∈ chunks, k ∉ ch.map (·.id)) →
      mfind k (runChunks p t chunks res0 c calls).1 = mfind k res0 := by
  intro chunks
  induction chunks with
  | nil => intro res0 c calls k _; rfl
  | cons ch rest ih =>
      intro res0 c calls k hk
      have hred : runChunks p t (ch :: rest) res0 c calls =
          runChunks p t rest
            ((analyzeBatchInSingleCall p c t ch).1.foldl
              (fun acc x => mset acc x.1 x.2) res0)
            (analyzeBatchInSingleCall p c t ch).2.1
            (calls + (analyzeBatchInSingleCall p c t ch).2.2) := rfl
      rw [hred, ih _ _ _ k (fun ch' h => hk ch' (List.mem_cons_of_mem _ h))]
      refine mergeFold_not_mem _ _ k ?_
      intro hmem
      exact hk ch (List.mem_cons_self _ _)
        (analyzeBatchInSingleCall_dom p c t ch k (isSome_mfind_of_mem_mkeys hmem))

/-- If a key occurs in no chunk other than chunk `i`, its final value is
chunk `i`'s own result (with the accumulator as fallback); the chunk result
does not depend on the evolving cache. -/
theorem runChunks_isolate (p : Provider) (t : Nat) :
    ∀ (chunks : List (List BatchAnalysisItem)) (i : Nat)
      (hi : i < chunks.length) (k : String)
      (res0 : List (String × AnalysisResult)) (c : AnalysisCache) (calls : Nat),
      (∀ i' (hi' : i' < chunks.length), i' ≠ i →
        k ∉ (chunks.get ⟨i', hi'⟩).map (·.id)) →
      mfind k (runChunks p t chunks res0 c calls).1 =
        ((mfind k (analyzeBatchInSingleCall p c t (chunks.get ⟨i, hi⟩)).1).or
          (mfind k res0)) := by
  intro chunks
  induction chunks with
  | nil => intro i hi; exact absurd hi (by simp)
  | cons ch rest ih =>
      intro i hi k res0 c calls hothers
      have hred : runChunks p t (ch :: rest) res0 c calls =
          runChunks p t rest
            ((analyzeBatchInSingleCall p c t ch).1.foldl
              (fun acc x => mset acc x.1 x.2) res0)
            (analyzeBatchInSingleCall p c t ch).2.1
            (calls + (analyzeBatchInSingleCall p c t ch).2.2) := rfl
      cases i with
      | zero =>
          have hrest : ∀ ch' ∈ rest, k ∉ ch'.map (·.id) := by
            intro ch' hch'
            obtain ⟨j, hjeq⟩ := List.get_of_mem hch'
            exact hjeq ▸ hothers (j.1 + 1) (Nat.succ_lt_succ j.2) (Nat.succ_ne_zero _)
          have hget0 : (ch :: rest).get ⟨0, hi⟩ = ch := rfl
          rw [hred, runChunks_none p t rest _ _ _ k hrest, hget0]
          by_cases hmem : k ∈ mkeys (analyzeBatchInSingleCall p c t ch).1
          · rw [mergeFold_mem_nodup _ _ k (analyzeBatchInSingleCall_nodup_keys p c t ch) hmem]
            cases hf : mfind k (analyzeBatchInSingleCall p c t ch).1 with
            | none => exact absurd (isSome_mfind_of_mem_mkeys hmem) (by rw [hf]; simp)
            | some v => rfl
          · rw [mergeFold_not_mem _ _ k hmem,
              mfind_eq_none_of_not_mem_mkeys hmem]
            rfl
      | succ j =>
          have hj : j < rest.length := by simpa using hi
          have hch0 : k ∉ ch.map (·.id) := hothers 0 (by simp) (by omega)
          have hoth' : ∀ i' (hi' : i' < rest.length), i' ≠ j →
              k ∉ (rest.get ⟨i', hi'⟩).map (·.id) := by
            intro i' hi' hne
            exact hothers (i' + 1) (by simpa using Nat.succ_lt_succ hi') (by omega)
          have hgetj : (ch :: rest).get ⟨j + 1, hi⟩ = rest.get ⟨j, hj⟩ := rfl
          rw [hred, ih j hj k _ _ _ hoth', hgetj]
          rw [mergeFold_not_mem _ _ k
            (fun hmem => hch0 (analyzeBatchInSingleCall_dom p c t ch k
              (isSome_mfind_of_mem_mkeys hmem)))]
          rw [analyzeBatchInSingleCall_fst_irrel p t t (rest.get ⟨j, hj⟩)
            (analyzeBatchInSingleCall p c t ch).2.1 c]

/-- When nothing is cached for the probed items, the probe is the identity:
no results, all items uncached, cache unchanged. -/
theorem cacheProbe_all_misses (t : Nat) :
    ∀ (items : List BatchAnalysisItem) (res0 : List (String × AnalysisResult))
      (unc0 : List BatchAnalysisItem) (c : AnalysisCache),
      (∀ it ∈ items, mfind (hashContent it.content) c.cache = none) →
      cacheProbe t items res0 unc0 c = (res0, unc0 ++ items, c) := by
  intro items
  induction items with
  | nil => intro res0 unc0 c _; simp [cacheProbe]
  | cons it rest ih =>
      intro res0 unc0 c hm
      have hget : c.get it.content t = (none, c) := by
        simp [AnalysisCache.get, hm it (List.mem_cons_self _ _)]
      have hred : cacheProbe t (it :: rest) res0 unc0 c =
          cacheProbe t rest res0 (unc0 ++ [it]) c := by
        simp [cacheProbe, hget]
      rw [hred, ih res0 (unc0 ++ [it]) c (fun it' h => hm it' (List.mem_cons_of_mem _ h))]
      simp

/-- Chunking partitions the list: the concatenation of the chunks is the
original list (for positive chunk size and enough fuel). -/
theorem chunkGo_join {α : Type} (n : Nat) (hn : 1 ≤ n) :
    ∀ (fuel : Nat) (l : List α), l.length ≤ fuel →
      (chunkGo fuel l n).flatten = l := by
  intro fuel
  induction fuel with
  | zero =>
      intro l hl
      have h0 : l = [] := List.eq_nil_of_length_eq_zero (by omega)
      simp [h0, chunkGo]
  | succ fuel ih =>
      intro l hl
      cases l with
      | nil => simp [chunkGo]
      | cons a rest =>
          simp only [chunkGo, List.flatten_cons]
          have hl2 : rest.length + 1 ≤ fuel + 1 := by simpa using hl
          rw [ih ((a :: rest).drop n)
            (by simp only [List.length_drop, List.length_cons]; omega)]
          exact List.take_append_drop n (a :: rest)

/-- Ids not in a chunk are untouched by its distribution loop. -/
theorem distributeGo_find_not_in (t : Nat) :
    ∀ (its : List BatchAnalysisItem) (rs : List AnalysisResult)
      (res0 : List (String × AnalysisResult)) (c : AnalysisCache) (k : String),
      k ∉ its.map (·.id) →
      mfind k (distributeGo t its rs res0 c).1 = mfind k res0 := by
  intro its
  induction its with
  | nil => intro rs res0 c k _; rfl
  | cons it rest ih =>
      intro rs res0 c k hk
      cases rs with
      | nil => rfl
      | cons r rrest =>
          simp only [List.map_cons, List.mem_cons] at hk
          push_neg at hk
          have hred : distributeGo t (it :: rest) (r :: rrest) res0 c =
              distributeGo t rest rrest (mset res0 it.id r) (c.set it.content r t) := rfl
          rw [hred, ih rrest _ _ k hk.2, mfind_mset_ne _ _ _ _ (fun h => hk.1 h.symm)]

/-- Position-wise zip: with duplicate-free chunk ids, the k-th chunk item's
id maps to the k-th parsed result. -/
theorem distributeGo_zip_lookup (t : Nat) :
    ∀ (its : List BatchAnalysisItem) (rs : List AnalysisResult)
      (res0 : List (String × AnalysisResult)) (c : AnalysisCache),
      (its.map (·.id)).Nodup →
      ∀ (k : Nat) (hk : k < its.length) (hr : k < rs.length),
        mfind (its.get ⟨k, hk⟩).id (distributeGo t its rs res0 c).1 =
          some (rs.get ⟨k, hr⟩) := by
  intro its
  induction its with
  | nil => intro rs res0 c _ k hk; exact absurd hk (by simp)
  | cons it rest ih =>
      intro rs res0 c hnd k hk hr
      cases rs with
      | nil => exact absurd hr (by simp)
      | cons r rrest =>
          have hnd2 : it.id ∉ rest.map (·.id) ∧ (rest.map (·.id)).Nodup :=
            List.nodup_cons.mp (by simpa using hnd)
          cases k with
          | zero =>
              have hred : distributeGo t (it :: rest) (r :: rrest) res0 c =
                  distributeGo t rest rrest (mset res0 it.id r)
                    (c.set it.content r t) := rfl
              show mfind it.id (distributeGo t (it :: rest) (r :: rrest) res0 c).1 = some r
              rw [hred, distributeGo_find_not_in t rest rrest _ _ it.id hnd2.1,
                mfind_mset_self]
          | succ k' =>
              have hk' : k' < rest.length := by simpa using hk
              have hr' : k' < rrest.length := by simpa using hr
              exact ih rrest (mset res0 it.id r) _ hnd2.2 k' hk' hr'

/-- Distinct positions of a join with duplicate-free mapped elements have
disjoint mapped element sets. -/
theorem join_nodup_sep {α β : Type} [DecidableEq β] (f : α → β) :
    ∀ (L : List (List α)), ((L.flatten).map f).Nodup →
      ∀ (i i' : Nat) (hi : i < L.length) (hi' : i' < L.length), i ≠ i' →
      ∀ x ∈ L.get ⟨i, hi⟩, f x ∉ (L.get ⟨i', hi'⟩).map f := by
  intro L
  induction L with
  | nil => intro _ i i' hi; exact absurd hi (by simp)
  | cons hd rest ih =>
      intro hnd i i' hi hi' hne x hx
      have hnd2 : (hd.map f ++ ((rest.flatten).map f)).Nodup := by
        simpa [List.flatten_cons, List.map_append] using hnd
      have hdisj := List.disjoint_of_nodup_append hnd2
      cases i with
      | zero =>
          cases i' with
          | zero => exact absurd rfl hne
          | succ j' =>
              intro hmem
              obtain ⟨y, hy, hyx⟩ := List.mem_map.mp hmem
              have hyj : f x ∈ (rest.flatten).map f := by
                refine List.mem_map.mpr ⟨y, ?_, hyx⟩
                exact List.mem_flatten.mpr ⟨rest.get ⟨j', by simpa using hi'⟩,
                  List.get_mem _ _ _, hy⟩
              exact hdisj (List.mem_map_of_mem f hx) hyj
      | succ j =>
          cases i' with
          | zero =>
              intro hmem
              have hxj : f x ∈ (rest.flatten).map f := by
                refine List.mem_map.mpr ⟨x, ?_, rfl⟩
                exact List.mem_flatten.mpr ⟨rest.get ⟨j, by simpa using hi⟩,
                  List.get_mem _ _ _, hx⟩
              exact hdisj hmem hxj
          | succ j' =>
              exact ih (List.nodup_append.mp hnd2).2.1 j j'
                (by simpa using hi) (by simpa using hi') (by omega) x hx

/-- Each chunk of a join with duplicate-free mapped elements is itself
duplicate-free under the map. -/
theorem join_nodup_each {α β : Type} (f : α → β) :
    ∀ (L : List (List α)), ((L.flatten).map f).Nodup → ∀ l ∈ L, (l.map f).Nodup := by
  intro L
  induction L with
  | nil => intro _ l hl; simp at hl
  | cons hd rest ih =>
      intro hnd l hl
      have hnd2 : (hd.map f ++ ((rest.flatten).map f)).Nodup := by
        simpa [List.flatten_cons, List.map_append] using hnd
      rcases List.mem_cons.mp hl with h | h
      · rw [h]; exact (List.nodup_append.mp hnd2).1
      · exact ih (List.nodup_append.mp hnd2).2.1 l h

/-- Claim C3: a provider failure on one chunk is isolated to that chunk.
Starting from a cache holding none of the items (so the chunks are exactly
`chunkList items n`) with duplicate-free ids: (a) every item of the failing
chunk is omitted from `analyzeInBatch`'s output map; (b) every item of every
other chunk receives its positional provider result; and (c) in
`transformFeishuListWithAI`, any record whose id the output map omits is
returned exactly as normalized — sentiment Pending, the normalizer's
category and tags, and no `aiSummary` — instead of failing the query. -/
theorem chunk_failure_isolated (p : Provider) (c0 : AnalysisCache) (t : Nat)
    (items : List BatchAnalysisItem) (n : Nat) (j : Nat)
    (rsf : Nat → List AnalysisResult)
    (hn : 1 ≤ n)
    (hnd : (items.map (·.id)).Nodup)
    (hcold : ∀ it ∈ items, mfind (hashContent it.content) c0.cache = none)
    (hj : j < (chunkList items n).length)
    (hfail : p ((chunkList items n).get ⟨j, hj⟩) = none)
    (hsucc : ∀ i (hi : i < (chunkList items n).length), i ≠ j →
      p ((chunkList items n).get ⟨i, hi⟩) = some (rsf i)) :
    (∀ it ∈ (chunkList items n).get ⟨j, hj⟩,
      mfind it.id (analyzeInBatch p c0 t items n).1 = none) ∧
    (∀ i (hi : i < (chunkList items n).length), i ≠ j →
      ∀ (k : Nat) (hk : k < ((chunkList items n).get ⟨i, hi⟩).length)
        (hr : k < (rsf i).length),
        mfind (((chunkList items n).get ⟨i, hi⟩).get ⟨k, hk⟩).id
          (analyzeInBatch p c0 t items n).1 = some ((rsf i).get ⟨k, hr⟩)) ∧
    (∀ (q : Provider) (c : AnalysisCache) (t' : Nat)
      (raw : List FeishuFeedbackItem) (m : Nat) (idx : Nat)
      (item : FeishuFeedbackItem),
      raw.get? idx = some item →
      mfind (transformFeishuToFeedback item).id
        (analyzeInBatch q c t' (batchItemsOf raw) m).1 = none →
      (transformFeishuListWithAI q c t' raw m).1.get? idx =
        some (transformFeishuToFeedback item) ∧
      (transformFeishuToFeedback item).sentiment = Sentiment.pending ∧
      (transformFeishuToFeedback item).aiSummary = none) := by
  have hprobe : cacheProbe t items [] [] c0 = ([], items, c0) :=
    cacheProbe_all_misses t items [] [] c0 hcold
  have hne : items.isEmpty = false := by
    cases items with
    | nil => exact absurd hj (by simp [chunkList, chunkGo])
    | cons a r => rfl
  have hrun : analyzeInBatch p c0 t items n =
      runChunks p t (chunkList items n) [] c0 0 := by
    simp only [analyzeInBatch, hprobe]
    rw [if_neg (by simp [hne])]
  have hflat : (chunkList items n).flatten = items :=
    chunkGo_join n hn items.length items (le_refl _)
  have hLnd : (((chunkList items n).flatten).map (·.id)).Nodup := by
    rw [hflat]; exact hnd
  refine ⟨?_, ?_, ?_⟩
  · intro it hit
    have hiso := runChunks_isolate p t (chunkList items n) j hj it.id [] c0 0 ?_
    · rw [hrun, hiso]
      have habsc : (analyzeBatchInSingleCall p c0 t
          ((chunkList items n).get ⟨j, hj⟩)).1 = [] := by
        unfold analyzeBatchInSingleCall
        by_cases he : ((chunkList items n).get ⟨j, hj⟩).isEmpty = true
        · rw [if_pos he]
        · rw [if_neg he, hfail]
      rw [habsc]
      rfl
    · intro i' hi' hne'
      exact fun hmem => join_nodup_sep (·.id) (chunkList items n) hLnd j i' hj hi'
        (fun h => hne' h.symm) it hit hmem
  · intro i hi hnei k hk hr
    have hiso := runChunks_isolate p t (chunkList items n) i hi
      (((chunkList items n).get ⟨i, hi⟩).get ⟨k, hk⟩).id [] c0 0 ?_
    · rw [hrun, hiso]
      have hche : ((chunkList items n).get ⟨i, hi⟩).isEmpty = false := by
        cases hch : (chunkList items n).get ⟨i, hi⟩ with
        | nil => rw [hch] at hk; exact absurd hk (by simp)
        | cons a r => rfl
      have habsc : (analyzeBatchInSingleCall p c0 t
          ((chunkList items n).get ⟨i, hi⟩)).1 =
          (distributeGo t ((chunkList items n).get ⟨i, hi⟩) (rsf i) [] c0).1 := by
        unfold analyzeBatchInSingleCall
        rw [if_neg (by rw [hche]; exact Bool.false_ne_true), hsucc i hi hnei]
      rw [habsc, distributeGo_zip_lookup t ((chunkList items n).get ⟨i, hi⟩)
        (rsf i) [] c0
        (join_nodup_each (·.id) (chunkList items n) hLnd _ (List.get_mem _ _ _))
        k hk hr]
      rfl
    · intro i' hi' hne'
      exact fun hmem => join_nodup_sep (·.id) (chunkList items n) hLnd i i' hi hi'
        (fun h => hne' h.symm) _ (List.get_mem _ _ _) hmem
  · intro q c t' raw m idx item hidx hnores
    refine ⟨?_, rfl, rfl⟩
    simp only [transformFeishuListWithAI]
    by_cases he : (batchItemsOf raw).isEmpty
    · rw [if_pos he, List.get?_map, hidx]
      rfl
    · rw [if_neg he]
      show ((raw.map transformFeishuToFeedback).map
          (applyAnalysis (analyzeInBatch q c t' (batchItemsOf raw) m).1)).get? idx = _
      rw [List.get?_map, List.get?_map, hidx]
      simp only [Option.map_some']
      rw [show applyAnalysis (analyzeInBatch q c t' (batchItemsOf raw) m).1
          (transformFeishuToFeedback item) = transformFeishuToFeedback item by
        simp [applyAnalysis, hnores]]

/-- A provider that fails exactly on the chunk holding the first witness
item and answers every other chunk in full. -/
def wProviderFail : Provider := fun ch =>
  if ch = [(⟨"f-1", "应用闪退了"⟩ : BatchAnalysisItem)] then none
  else some (ch.map (fun _ => wResult))

/-- A two-item batch for the failure-isolation witness. -/
def wItems2 : List BatchAnalysisItem :=
  [⟨"f-1", "应用闪退了"⟩, ⟨"f-2", "加载太慢"⟩]

set_option maxRecDepth 100000 in
/-- Witness for C3 with chunk size 1: the provider fails on chunk 0
(containing item f-1) and succeeds on chunk 1 (item f-2); f-1 is omitted
from the output map while f-2 receives the provider result. -/
theorem chunk_failure_isolated_witness :
    (1 ≤ 1 ∧ (wItems2.map (·.id)).Nodup ∧
      (∀ it ∈ wItems2, mfind (hashContent it.content) analysisCache.cache = none)) ∧
    mfind "f-1" (analyzeInBatch wProviderFail analysisCache 0 wItems2 1).1 = none ∧
    mfind "f-2" (analyzeInBatch wProviderFail analysisCache 0 wItems2 1).1 =
      some wResult := by
  have h := chunk_failure_isolated wProviderFail analysisCache 0 wItems2 1 0
    (fun _ => [wResult]) (by decide) (by decide) (by decide) (by decide)
    (by decide) (by decide)
  refine ⟨⟨by decide, by decide, by decide⟩, ?_, ?_⟩
  · exact h.1 ⟨"f-1", "应用闪退了"⟩ (by decide)
  · exact h.2.1 1 (by decide) (by decide) 0 (by decide) (by decide)

/-! ## Upstream fetch (`fetchSingleRange` / `fetchFromFeishu`, feedback.ts
lines 604-727)

The network is an oracle giving one `{ok, status, code, data}` response per
requested day range.  The Supabase warm cache is an oracle too: `none` models
"not configured or query failed", `some dbData` a successful read.  Date
ordering for the final sort is parameterized by a date-valuation function. -/

/-- Upstream HTTP response: transport status plus the parsed `{code, data}`
envelope. -/
structure HttpResp : Type where
  ok : Bool
  status : Nat
  code : Int
  data : Option (List FeishuFeedbackItem)
deriving DecidableEq, Repr

/-- Typed fetch failures: transport for a non-2xx status, logical for a
nonzero envelope code. -/
inductive FetchError : Type
  | transport (status : Nat)
  | logical (code : Int)
deriving DecidableEq, Repr

/-- The network oracle. -/
def Net : Type := Nat → Nat → HttpResp

/-- `fetchSingleRange` (feedback.ts lines 604-619): throw on `!response.ok`,
throw on `code !== 0`, else return `result.data || []`. -/
def fetchSingleRange (net : Net) (f t : Nat) :
    Except FetchError (List FeishuFeedbackItem) :=
  let response := net f t
  if response.ok = false then Except.error (FetchError.transport response.status)
  else if response.code ≠ 0 then Except.error (FetchError.logical response.code)
  else Except.ok (response.data.getD [])

/-- The chunked fetch loop (feedback.ts lines 670-681): chunk results are
concatenated in input order; a rejected fetch aborts the whole run (the
windows of 5 concurrent requests only bound parallelism). -/
def fetchChunks (net : Net) : List (Nat × Nat) →
    Except FetchError (List FeishuFeedbackItem)
  | [] => Except.ok []
  | ch :: rest =>
      match fetchSingleRange net ch.1 ch.2 with
      | Except.error e => Except.error e
      | Except.ok data =>
          match fetchChunks net rest with
          | Except.error e => Except.error e
          | Except.ok more => Except.ok (data ++ more)

/-- Stable descending insertion used to model
`sort((a, b) => dateB - dateA)` under a date valuation `dv`. -/
def insertDesc (dv : String → Int) (x : FeedbackItem) :
    List FeedbackItem → List FeedbackItem
  | [] => [x]
  | y :: rest =>
      if dv y.date < dv x.date then x :: y :: rest else y :: insertDesc dv x rest

/-- Sort by date descending (newest first). -/
def sortByDateDesc (dv : String → Int) (l : List FeedbackItem) : List FeedbackItem :=
  l.foldr (insertDesc dv) []

/-- Step 3 onward of `fetchFromFeishu`: chunked fetch, dedup, transform (with
or without AI), sort, and memory-cache store.  (The fire-and-forget Supabase
upsert has no effect on the returned value or the in-process caches.) -/
def fetchFresh (net : Net) (p : Provider) (dv : String → Int)
    (acache : AnalysisCache) (qc : LRUCache) (now f t : Nat) (withAI : Bool)
    (cacheKey : String) :
    Except FetchError (List FeedbackItem) × LRUCache × AnalysisCache :=
  match fetchChunks net (splitDateRange f t 3) with
  | Except.error e => (Except.error e, qc, acache)
  | Except.ok allRawData =>
      let uniqueRawData := dedupeById allRawData
      let r := if withAI then transformFeishuListWithAI p acache now uniqueRawData 50
               else (transformFeishuList uniqueRawData, acache, 0)
      let sorted := sortByDateDesc dv r.1
      (Except.ok sorted, qc.set cacheKey sorted withAI now, r.2.1)

/-- `fetchFromFeishu` (feedback.ts lines 625-727): memory cache, Supabase
warm cache (early return only when data exists and needs no AI), then the
fresh chunked fetch. -/
def fetchFromFeishu (net : Net) (sb : Option (List FeedbackItem)) (p : Provider)
    (dv : String → Int) (acache : AnalysisCache) (qcache : LRUCache)
    (now f t : Nat) (withAI : Bool) :
    Except FetchError (List FeedbackItem) × LRUCache × AnalysisCache :=
  let cacheKey := toString f ++ "-" ++ toString t
  let g := qcache.get cacheKey withAI now
  match g.1 with
  | some cached => (Except.ok cached, g.2, acache)
  | none =>
      match sb with
      | some dbData =>
          if 0 < dbData.length then
            if withAI && dbData.any (fun r => decide (r.sentiment = Sentiment.pending)) then
              fetchFresh net p dv acache g.2 now f t withAI cacheKey
            else
              (Except.ok dbData, (g.2).set cacheKey dbData true now, acache)
          else fetchFresh net p dv acache g.2 now f t withAI cacheKey
      | none => fetchFresh net p dv acache g.2 now f t withAI cacheKey

/-- A failing chunk fails the whole chunked fetch. -/
theorem fetchChunks_error (net : Net) :
    ∀ (chunks : List (Nat × Nat)),
      (∃ ch ∈ chunks, ∃ e, fetchSingleRange net ch.1 ch.2 = Except.error e) →
      ∃ e, fetchChunks net chunks = Except.error e := by
  intro chunks
  induction chunks with
  | nil => intro h; obtain ⟨ch, hch, _⟩ := h; simp at hch
  | cons ch0 rest ih =>
      intro h
      cases hf : fetchSingleRange net ch0.1 ch0.2 with
      | error e => exact ⟨e, by simp [fetchChunks, hf]⟩
      | ok data =>
          obtain ⟨ch, hch, e, he⟩ := h
          have hrest : ch ∈ rest := by
            rcases List.mem_cons.mp hch with h' | h'
            · rw [h'] at he; rw [he] at hf; exact absurd hf (by simp)
            · exact h'
          obtain ⟨e', he'⟩ := ih ⟨ch, hrest, e, he⟩
          exact ⟨e', by simp [fetchChunks, hf, he']⟩

/-- Claim C4: a non-2xx chunk response raises `transport(status)` and a
nonzero envelope code raises `logical(code)` from `fetchSingleRange`; when
the memory cache misses without mutation, the warm cache does not satisfy
the query, and some chunk fetch fails, `fetchFromFeishu` propagates the
failure — the whole query errors — and both in-process caches are exactly
as before: no partial upstream data is cached or returned. -/
theorem fetch_error_aborts (net : Net) (sb : Option (List FeedbackItem))
    (p : Provider) (dv : String → Int) (acache : AnalysisCache)
    (qcache : LRUCache) (now f t : Nat) (withAI : Bool)
    (hmiss : qcache.get (toString f ++ "-" ++ toString t) withAI now = (none, qcache))
    (hsb : sb = none ∨ ∃ dbData, sb = some dbData ∧
      (dbData = [] ∨ (withAI &&
        dbData.any (fun r => decide (r.sentiment = Sentiment.pending))) = true))
    (hfail : ∃ ch ∈ splitDateRange f t 3, ∃ e,
      fetchSingleRange net ch.1 ch.2 = Except.error e) :
    ((∀ f' t', (net f' t').ok = false →
        fetchSingleRange net f' t' =
          Except.error (FetchError.transport (net f' t').status)) ∧
      (∀ f' t', (net f' t').ok = true → (net f' t').code ≠ 0 →
        fetchSingleRange net f' t' =
          Except.error (FetchError.logical (net f' t').code))) ∧
    (∃ e, (fetchFromFeishu net sb p dv acache qcache now f t withAI).1 =
      Except.error e) ∧
    (fetchFromFeishu net sb p dv acache qcache now f t withAI).2.1 = qcache ∧
    (fetchFromFeishu net sb p dv acache qcache now f t withAI).2.2 = acache := by
  obtain ⟨efail, hefail⟩ := fetchChunks_error net (splitDateRange f t 3) hfail
  have hfresh : fetchFresh net p dv acache qcache now f t withAI
      (toString f ++ "-" ++ toString t) =
      (Except.error efail, qcache, acache) := by
    simp [fetchFresh, hefail]
  have hmain : fetchFromFeishu net sb p dv acache qcache now f t withAI =
      (Except.error efail, qcache, acache) := by
    rcases hsb with hsb | ⟨dbData, hsbd, hcase⟩
    · simp [fetchFromFeishu, hmiss, hsb, hfresh]
    · rcases hcase with hnil | hai
      · simp [fetchFromFeishu, hmiss, hsbd, hnil, hfresh]
      · simp [fetchFromFeishu, hmiss, hsbd, hai, hfresh]
  refine ⟨⟨?_, ?_⟩, ⟨efail, by rw [hmain]⟩, by rw [hmain], by rw [hmain]⟩
  · intro f' t' hok
    simp [fetchSingleRange, hok]
  · intro f' t' hok hcode
    simp [fetchSingleRange, hok, hcode]

/-- An always-failing network. -/
def wNetFail : Net := fun _ _ => ⟨false, 500, 0, none⟩

set_option maxRecDepth 100000 in
/-- Witness for C4: with the empty query cache, no warm cache, and a network
answering 500 to every chunk, the query over days 0..6 errors and both
caches are unchanged. -/
theorem fetch_error_aborts_witness :
    (feedbackCache.get "0-6" true 0 = (none, feedbackCache) ∧
      fetchSingleRange wNetFail 0 2 = Except.error (FetchError.transport 500)) ∧
    ((fetchFromFeishu wNetFail none wProvider (fun _ => 0) analysisCache
        feedbackCache 0 0 6 true).1.isOk = false ∧
      (fetchFromFeishu wNetFail none wProvider (fun _ => 0) analysisCache
        feedbackCache 0 0 6 true).2.1 = feedbackCache ∧
      (fetchFromFeishu wNetFail none wProvider (fun _ => 0) analysisCache
        feedbackCache 0 0 6 true).2.2 = analysisCache) := by
  have h := fetch_error_aborts wNetFail none wProvider (fun _ => 0) analysisCache
    feedbackCache 0 0 6 true (by decide) (Or.inl rfl)
    ⟨(0, 2), by decide, FetchError.transport 500, rfl⟩
  refine ⟨⟨by decide, rfl⟩, ?_, h.2.2.1, h.2.2.2⟩
  obtain ⟨e, he⟩ := h.2.1
  rw [he]
  rfl
